import Mathlib

/-!
Verification development for the PBIP standards pipeline
(`pbip_staging/pilot_pipeline.py` and `mcp_server/standards/reader.py`).

The Python code is shallowly embedded: strings are modelled as `List Char`
(wrapped in `String` at the interface), Python `None`-able values as
`Option`, Python dicts with a known key set as structures with `Option`
fields.  The regular expressions used by the source are simple enough to be
transcribed as recursive functions on character lists; each transcription is
annotated with the regex it implements.  All characters the pipeline treats
specially are ASCII (`[0-9A-Za-z]`, `_`, space, `/`, ...), so ASCII-level
`Char.toLower` / `Char.toUpper` coincide with Python's `str.lower` /
`str.upper` on every character position where the code applies them.
-/

namespace PbipSpec

/-- ASCII alphanumeric test: the character class `[0-9A-Za-z]` used by every
regex in the source. -/
def pyAlnum (c : Char) : Bool :=
  c.isUpper || c.isLower || c.isDigit

/-- The character class `[a-z0-9]` of the snake_case regex. -/
def lowerDigit (c : Char) : Bool :=
  c.isLower || c.isDigit

/-- Whitespace as recognised by Python's `str.strip()` / `\s` for the ASCII
range (the only whitespace that can reach the relevant code paths, because
every non-alphanumeric character has already been replaced by `_` or a
space there). -/
def pyIsSpace (c : Char) : Bool :=
  c = ' ' || c = '\t' || c = '\n' || c = '\r' || c = '\x0b' || c = '\x0c'

/-- `re.sub(p_run, rep, s)` for a single-character-class pattern with a `+`
quantifier: every maximal run of characters satisfying `p` is replaced by the
single character `rep`.  The boolean state records whether the previous
input character belonged to the current run. -/
def repRuns (p : Char → Bool) (rep : Char) : Bool → List Char → List Char
  | _, [] => []
  | inRun, c :: cs =>
    if p c then
      if inRun then repRuns p rep true cs
      else rep :: repRuns p rep true cs
    else c :: repRuns p rep false cs

/-- Python `str.strip(chars)` for a one-element character set, and
`str.strip()` when `p` is the whitespace test: drop matching characters from
both ends. -/
def stripIf (p : Char → Bool) (l : List Char) : List Char :=
  ((l.dropWhile p).reverse.dropWhile p).reverse

/-- `re.sub(r"([a-z0-9])([A-Z])", r"\1_\2", s)`: insert `_` between a
lowercase/digit character and an uppercase character; after a replacement the
scan resumes after the uppercase character, exactly like the regex engine. -/
def insertBound : List Char → List Char
  | c1 :: c2 :: cs =>
    if lowerDigit c1 && c2.isUpper then c1 :: '_' :: c2 :: insertBound cs
    else c1 :: insertBound (c2 :: cs)
  | l => l

/-- `to_snake_case` from `pbip_staging/pilot_pipeline.py`:
replace non-alphanumeric runs by `_`, strip `_` from the edges, insert `_`
at lower/digit→upper boundaries, collapse repeated `_` (a maximal-run
replacement by `_` is the identity on single underscores, hence coincides
with `re.sub(r"_{2,}", "_", ·)`), and lowercase. -/
def to_snake_case (name : String) : String :=
  let s1 := stripIf (· = '_') (repRuns (fun c => !pyAlnum c) '_' false name.data)
  let s2 := insertBound s1
  let s3 := repRuns (· = '_') '_' false s2
  ⟨s3.map Char.toLower⟩

theorem dropWhileLenLe {α : Type} (p : α → Bool) :
    ∀ l : List α, (l.dropWhile p).length ≤ l.length := by
  intro l
  induction l with
  | nil => simp [List.dropWhile]
  | cons c cs ih =>
    simp only [List.dropWhile]
    cases p c
    · simp
    · simp only [List.length_cons]
      omega

/-- Worker for `wordsBy`: `acc` is the current word accumulated in reverse. -/
def wordsByGo (sep : Char → Bool) : List Char → List Char → List (List Char)
  | [], acc => if acc = [] then [] else [acc.reverse]
  | c :: cs, acc =>
    if sep c then
      if acc = [] then wordsByGo sep cs []
      else acc.reverse :: wordsByGo sep cs []
    else wordsByGo sep cs (c :: acc)

/-- Maximal runs of characters not satisfying `sep`: the composition of
`re.split(r"\s+", s)` with the `if word` filter used at the join site in
`to_pascal_case_with_spaces` (empty tokens produced by the split are exactly
the ones dropped by the filter). -/
def wordsBy (sep : Char → Bool) (l : List Char) : List (List Char) :=
  wordsByGo sep l []

/-- Python `str.capitalize()` for ASCII content: first character uppercased,
remaining characters lowercased. -/
def capWord : List Char → List Char
  | [] => []
  | c :: cs => c.toUpper :: cs.map Char.toLower

/-- `" ".join(ws)`. -/
def joinSpace : List (List Char) → List Char
  | [] => []
  | [w] => w
  | w :: ws => w ++ ' ' :: joinSpace ws

/-- The `cleaned` intermediate of `to_pascal_case_with_spaces`:
non-alphanumeric runs replaced by spaces, then whitespace-stripped. -/
def pascalCleaned (name : String) : List Char :=
  stripIf pyIsSpace (repRuns (fun c => !pyAlnum c) ' ' false name.data)

/-- `to_pascal_case_with_spaces` from `pbip_staging/pilot_pipeline.py`:
replace non-alphanumeric runs by spaces, strip, and if anything remains,
capitalize each whitespace-separated word and re-join with single spaces;
otherwise return the input unchanged. -/
def to_pascal_case_with_spaces (name : String) : String :=
  if pascalCleaned name = [] then name
  else ⟨joinSpace ((wordsBy pyIsSpace (pascalCleaned name)).map capWord)⟩

/-- Tail automaton of the snake_case regex: accepts `([a-z0-9]|_[a-z0-9])*`,
i.e. what may follow the mandatory first `[a-z0-9]` character of
`^[a-z0-9]+(?:_[a-z0-9]+)*$` (an `_` must be followed by a further
`[a-z0-9]`, so no trailing or doubled `_`). -/
def snakeTail : List Char → Bool
  | [] => true
  | '_' :: [] => false
  | '_' :: c :: cs => lowerDigit c && snakeTail cs
  | c :: cs => lowerDigit c && snakeTail cs

/-- The anchored regex `SNAKE_CASE_RE = ^[a-z0-9]+(?:_[a-z0-9]+)*$` from
`pbip_staging/pilot_pipeline.py`, transcribed as a one-state-at-a-time
matcher over the character list. -/
def matchesSnakeL : List Char → Bool
  | [] => false
  | c :: cs => lowerDigit c && snakeTail cs

/-- `SNAKE_CASE_RE.fullmatch` on a `String`. -/
def matchesSnake (s : String) : Bool :=
  matchesSnakeL s.data

/-- Tail automaton of the PascalCase-with-spaces regex: accepts
`([A-Za-z0-9]| [A-Z])*`-shaped continuations of
`^[A-Z][A-Za-z0-9]*(?: [A-Z][A-Za-z0-9]*)*$` (a space must be followed by a
new `[A-Z]` word head). -/
def pasTail : List Char → Bool
  | [] => true
  | ' ' :: [] => false
  | ' ' :: c :: cs => c.isUpper && pasTail cs
  | c :: cs => pyAlnum c && pasTail cs

/-- The anchored regex
`PASCAL_CASE_WITH_SPACES_RE = ^[A-Z][A-Za-z0-9]*(?: [A-Z][A-Za-z0-9]*)*$`
from `pbip_staging/pilot_pipeline.py`. -/
def matchesPascalL : List Char → Bool
  | [] => false
  | c :: cs => c.isUpper && pasTail cs

/-- `PASCAL_CASE_WITH_SPACES_RE.fullmatch` on a `String`. -/
def matchesPascal (s : String) : Bool :=
  matchesPascalL s.data

/-- Python's `re.match` with a `^...$` pattern also succeeds when the `$`
sits before one trailing newline; this is the predicate the validator's
`pattern.match(name)` actually computes. -/
def pyReMatch (core : List Char → Bool) (s : String) : Bool :=
  core s.data ||
    (match s.data.getLast? with
     | some '\n' => core s.data.dropLast
     | _ => false)

end PbipSpec

namespace PbipSpec

/-! ## `mcp_server/standards/reader.py` -/

/-- The `naming` sub-dict of the legacy `DAX_Templates` configuration
(`dax.get("naming", {})`); an absent dict and an empty dict behave
identically downstream, so both are modelled by the default value. -/
structure NamingCfg where
  measures : Option String := none
  columns : Option String := none
  folders : List String := []
deriving Repr, DecidableEq

/-- The legacy `DAX_Templates` configuration section.  `coding` and
`performance` are Python dicts iterated in insertion order, modelled as
association lists; guidance values appear in rules only through `str(...)`,
so they are modelled as strings. -/
structure DaxCfg where
  source : Option String := none
  naming : NamingCfg := {}
  coding : List (String × String) := []
  performance : List (String × String) := []
  anti_patterns : List String := []
deriving Repr, DecidableEq

/-- The legacy `Power_Query_guide` configuration section.
`doc_block_required` is `some fields` when the legacy config holds a truthy
`doc_block` dict (with its `required` list, defaulting to `[]`), and `none`
when `doc_block` is absent or falsy. -/
structure PqCfg where
  source : Option String := none
  formatting : List (String × String) := []
  doc_block_required : Option (List String) := none
deriving Repr, DecidableEq

/-- The parsed legacy `standards_mcp.json` structure; only the two keys the
reader looks at are modelled.  A Python `{}` corresponds to both fields
`none`. -/
structure LegacyConfig where
  DAX_Templates : Option DaxCfg := none
  Power_Query_guide : Option PqCfg := none
deriving Repr, DecidableEq

/-- Python truthiness of the top-level legacy-config dict. -/
def LegacyConfig.isEmptyCfg (c : LegacyConfig) : Bool :=
  c.DAX_Templates.isNone && c.Power_Query_guide.isNone

/-- `_slug` from `reader.py`: `re.sub(r"[^a-zA-Z0-9]+", "_", value)`, strip
`_` from both ends, lowercase, with fallback `"rule"` for an empty result. -/
def _slug (value : String) : String :=
  let cleaned :=
    (stripIf (· = '_') (repRuns (fun c => !pyAlnum c) '_' false value.data)).map Char.toLower
  if cleaned = [] then "rule" else ⟨cleaned⟩

/-- The `automation.check` sub-dict a rule may carry (union of the key sets
the builder writes and the pilot pipeline reads). -/
structure CheckSpec where
  type : String := ""
  field : Option String := none
  matcher : Option String := none
  allowed : List String := []
  rule : Option String := none
  rule_id : Option String := none
  fields : List String := []
  path : Option String := none
  strategy : Option String := none
deriving Repr, DecidableEq

/-- The `automation.auto_fix` sub-dict. -/
structure AutoFixSpec where
  type : String := ""
  strategy : Option String := none
  field : Option String := none
  value : Option String := none
deriving Repr, DecidableEq

/-- The `automation` dict of a rule. -/
structure Automation where
  check : Option CheckSpec := none
  auto_fix : Option AutoFixSpec := none
deriving Repr, DecidableEq

/-- The `details` dict of a rule (union of the keys the builder writes and
the pilot pipeline reads). -/
structure RuleDetails where
  pattern : Option String := none
  allowed : List String := []
  default : Option String := none
  recommended : Option String := none
  required_fields : List String := []
deriving Repr, DecidableEq

/-- `StandardRule` from `reader.py`. -/
structure StandardRule where
  id : String
  title : String
  resource : String
  scope : String
  category : String
  severity : String
  description : String
  details : RuleDetails := {}
  references : List String := []
  tags : List String := []
  applies_to : List String := []
  automation : Automation := {}
  rationale : Option String := none
deriving Repr, DecidableEq

/-- `StandardRule.to_dict`: the serialised rule keeps every field, sorts and
deduplicates `tags`, and drops a falsy `rationale`. -/
def StandardRule.to_dict (r : StandardRule) : StandardRule :=
  { r with
    tags := List.insertionSort (fun a b => a ≤ b) r.tags.dedup
    rationale := match r.rationale with
      | some s => if s = "" then none else some s
      | none => none }

/-- The fixed scope table `performance_scope` in `_build_dax_rules`, with
its `dict.get(key, ["model"])` default. -/
def performanceScope (key : String) : List String :=
  if key = "iterators" then ["measure"]
  else if key = "measures" then ["measure"]
  else if key = "relationships" then ["model"]
  else ["model"]

/-- `_build_dax_rules` from `reader.py`.  The `if coding:` / `if performance:`
/ `if anti_patterns:` guards are dropped because mapping over an empty list
already produces no rules. -/
def _build_dax_rules (config : LegacyConfig) : List StandardRule :=
  let dax := config.DAX_Templates.getD {}
  let source := dax.source.getD "external/DAX_Templates/Standards/02_DAX_Standards_and_Naming.md"
  let naming := dax.naming
  let measure_pattern := naming.measures.getD "snake_case"
  let column_pattern := naming.columns.getD "PascalCase"
  let folders := naming.folders
  [({ id := "dax.naming.measure.snake_case"
      title := "Measures follow snake_case with semantic prefix"
      resource := "DAX", scope := "measure", category := "naming", severity := "warning"
      description := "Measures must follow: " ++ measure_pattern
      details := { pattern := some measure_pattern }
      references := [source]
      tags := ["dax", "measure", "naming"]
      applies_to := ["measure"]
      automation :=
        { check := some { type := "pattern", field := some "name", matcher := some measure_pattern }
          auto_fix := some { type := "transform", strategy := some "snake_case" } } } : StandardRule),
   { id := "dax.naming.column.pascal_case"
     title := "Columns use PascalCase with optional spaces"
     resource := "DAX", scope := "column", category := "naming", severity := "info"
     description := "Columns should follow: " ++ column_pattern
     details := { pattern := some column_pattern }
     references := [source]
     tags := ["dax", "column", "naming"]
     applies_to := ["column"]
     automation :=
       { check := some { type := "pattern", field := some "name", matcher := some column_pattern }
         auto_fix := some { type := "transform", strategy := some "pascal_case_with_spaces" } } }]
  ++ (if folders ≠ [] then
       [{ id := "dax.naming.display_folder.allowed"
          title := "Approved display folders"
          resource := "DAX", scope := "measure", category := "organisation", severity := "info"
          description := "Measures and columns should reside in the curated display folders."
          details := { allowed := folders, default := folders.head? }
          references := [source]
          tags := ["display_folder", "organisation"]
          applies_to := ["measure", "column"]
          automation :=
            { check := some { type := "membership", field := some "display_folder", allowed := folders }
              auto_fix := some { type := "assign", field := some "display_folder",
                                 value := folders.head? } } }]
      else [])
  ++ dax.coding.map (fun kv =>
      { id := "dax.coding." ++ _slug kv.1
        title := "DAX coding guideline: " ++ kv.1
        resource := "DAX", scope := "measure", category := "coding", severity := "info"
        description := kv.2
        references := [source]
        tags := ["coding", kv.1]
        applies_to := ["measure"]
        automation := { check := some { type := "lint", rule := some kv.1 } } })
  ++ dax.performance.map (fun kv =>
      let applies_to := performanceScope kv.1
      { id := "dax.performance." ++ _slug kv.1
        title := "DAX performance guideline: " ++ kv.1
        resource := "DAX", scope := applies_to.headD "model", category := "performance"
        severity := "info"
        description := kv.2
        references := [source]
        tags := ["performance", kv.1]
        applies_to := applies_to
        automation := { check := some { type := "performance", rule := some kv.1 } } })
  ++ dax.anti_patterns.map (fun entry =>
      let rule_id : String := "dax.anti_pattern." ++ ⟨(_slug entry).data.take 40⟩
      { id := rule_id
        title := "DAX anti-pattern"
        resource := "DAX", scope := "measure", category := "anti_pattern", severity := "warning"
        description := entry
        references := [source]
        tags := ["anti_pattern", "dax"]
        applies_to := ["measure"]
        automation := { check := some { type := "lint", rule_id := some rule_id } } })
  ++ [{ id := "dax.formatting.measure.format_string_required"
        title := "Measures define formatString"
        resource := "DAX", scope := "measure", category := "formatting", severity := "warning"
        description := "Measures should specify formatString for consistent reporting."
        details := { recommended := some "#,##0.00;(#,##0.00);-" }
        references := [source]
        tags := ["formatting"]
        applies_to := ["measure"]
        automation :=
          { check := some { type := "presence", field := some "format_string" }
            auto_fix := some { type := "assign", field := some "format_string",
                               value := some "#,##0.00;(#,##0.00);-" } } }]

/-- `_build_power_query_rules` from `reader.py`. -/
def _build_power_query_rules (config : LegacyConfig) : List StandardRule :=
  let pq := config.Power_Query_guide.getD {}
  let source := pq.source.getD "external/Power_Query_guide/Standards/FORMATTER.md"
  pq.formatting.map (fun kv =>
      { id := "power_query.formatting." ++ _slug kv.1
        title := "Power Query formatting: " ++ kv.1
        resource := "PowerQuery", scope := "query", category := "formatting", severity := "info"
        description := kv.2
        references := [source]
        tags := ["power_query", kv.1]
        applies_to := ["query"]
        automation := { check := some { type := "formatter", rule := some kv.1 } } })
  ++ (match pq.doc_block_required with
      | some required =>
        [{ id := "power_query.documentation.doc_block_required"
           title := "Power Query documentation block"
           resource := "PowerQuery", scope := "query", category := "documentation"
           severity := "warning"
           description := "Power Query scripts require a documentation block with the specified fields."
           details := { required_fields := required }
           references := [source]
           tags := ["documentation", "power_query"]
           applies_to := ["query"]
           automation :=
             { check := some { type := "required_fields", fields := required,
                               path := some "documentation" } } }]
      | none => [])

/-- The catalog dict produced by `build_catalog` / persisted in
`standards_catalog.json`: `sources_legacy_config` models
`sources["legacy_config"]`. -/
structure Catalog where
  version : Option String
  rule_count : Nat
  sources_legacy_config : Option String
  rules : List StandardRule
deriving Repr, DecidableEq

/-- `build_catalog(config)` from `reader.py`.  `now` models the
`datetime.now(timezone.utc)` timestamp; `legacyFile` models the content of
`external/standards_mcp.json` (`none` when that file does not exist, making
`_legacy_config()` return `{}`).  The Python argument default and the
`config = config or _legacy_config()` falsy-fallback are both modelled. -/
def build_catalog (now : String) (legacyFile : Option LegacyConfig)
    (config : Option LegacyConfig) : Catalog :=
  let cfg : LegacyConfig :=
    match config with
    | some c => if c.isEmptyCfg then legacyFile.getD {} else c
    | none => legacyFile.getD {}
  let rules := _build_dax_rules cfg ++ _build_power_query_rules cfg
  { version := some now
    rule_count := rules.length
    sources_legacy_config :=
      if legacyFile.isSome then some "external/standards_mcp.json" else none
    rules := rules.map StandardRule.to_dict }

/-- `load_catalog` from `reader.py`: a persisted `standards_catalog.json`
wins; otherwise the catalog is built from `standards_mcp.json` when that
exists; otherwise the empty-rules catalog literal is returned. -/
def load_catalog (now : String) (catalogFile : Option Catalog)
    (legacyFile : Option LegacyConfig) : Catalog :=
  match catalogFile with
  | some c => c
  | none =>
    match legacyFile with
    | some cfg => build_catalog now legacyFile (some cfg)
    | none => { version := none, rule_count := 0, sources_legacy_config := none, rules := [] }

/-- Proof device for id-uniqueness: a rank separating the id families the
builder emits, read off the discriminating character at index 4
(`dax.Naming` / `dax.Coding` / `dax.Performance` / `dax.Anti_pattern` /
`dax.Formatting` / `poweR_query`), and at index 12 within the power-query
family (`formatting` / `documentation`). -/
def ruleRank (s : String) : Nat :=
  if s.data[4]? = some 'n' then 0
  else if s.data[4]? = some 'c' then 1
  else if s.data[4]? = some 'p' then 2
  else if s.data[4]? = some 'a' then 3
  else if s.data[4]? = some 'f' then 4
  else if s.data[12]? = some 'f' then 5
  else 6

end PbipSpec

namespace PbipSpec

/-! ## `pbip_staging/pilot_pipeline.py`: rule lookups and pattern helpers -/

/-- Python's `a or b` for an optional string `a` (both `None` and `""` are
falsy). -/
def pyOrOpt (a b : Option String) : Option String :=
  match a with
  | some s => if s = "" then b else some s
  | none => b

/-- Python's `a or b` where `b` is a plain string. -/
def pyOrStr (a : Option String) (b : String) : String :=
  match a with
  | some s => if s = "" then b else s
  | none => b

/-- Truthiness of an optional string. -/
def pyTruthy (a : Option String) : Bool :=
  match a with
  | some s => s ≠ ""
  | none => false

/-- The two compiled regex objects the pipeline can hand around
(`SNAKE_CASE_RE` / `PASCAL_CASE_WITH_SPACES_RE`). -/
inductive CasePattern
  | snake
  | pascal
deriving Repr, DecidableEq

/-- The anchored core of a compiled pattern. -/
def CasePattern.core : CasePattern → (List Char → Bool)
  | .snake => matchesSnakeL
  | .pascal => matchesPascalL

/-- `pattern.match(name)` for one of the two compiled patterns (including
the `$`-before-trailing-newline behaviour of Python's `re`). -/
def patMatch (p : CasePattern) (s : String) : Bool :=
  pyReMatch p.core s

/-- The `PATTERN_STRATEGIES` module dict. -/
def PATTERN_STRATEGIES (s : String) : Option CasePattern :=
  if s = "snake_case" then some .snake
  else if s = "pascal_case_with_spaces" then some .pascal
  else none

/-- The `MATCHER_PATTERNS` module dict. -/
def MATCHER_PATTERNS (s : String) : Option CasePattern :=
  if s = "snake_case with semantic prefix" then some .snake
  else if s = "PascalCase with spaces for user-facing" then some .pascal
  else none

/-- The module-level pilot context: the catalog that `load_catalog()`
returned at module-initialisation time, from which every module constant
below is derived. -/
structure PilotCtx where
  catalog : Catalog
deriving Repr

/-- `RULE_LOOKUP`: the id-indexed dict comprehension over the catalog rules
(later rules with a duplicate id overwrite earlier ones). -/
def RULE_LOOKUP (ctx : PilotCtx) (ruleId : String) : Option StandardRule :=
  (ctx.catalog.rules.filter (fun r => r.id = ruleId)).getLast?

/-- `_pattern_for_rule` from the pilot pipeline. -/
def _pattern_for_rule (rule : Option StandardRule) : Option CasePattern :=
  match rule with
  | none => none
  | some r =>
    let check := r.automation.check.getD {}
    let matcher := pyOrOpt check.matcher r.details.pattern
    let strategy := pyOrOpt (r.automation.auto_fix.getD {}).strategy check.strategy
    let byStrategy :=
      match strategy with
      | some s => if s = "" then none else PATTERN_STRATEGIES s
      | none => none
    let byMatcher :=
      match matcher with
      | some m => if m = "" then none else MATCHER_PATTERNS m
      | none => none
    byStrategy <|> byMatcher

/-- `_allowed_values` from the pilot pipeline. -/
def _allowed_values (rule : Option StandardRule) : List String :=
  match rule with
  | none => []
  | some r =>
    let allowed := (r.automation.check.getD {}).allowed
    if allowed = [] then r.details.allowed else allowed

/-- `_auto_fix_value` from the pilot pipeline. -/
def _auto_fix_value (rule : Option StandardRule) (current_value : Option String) : Option String :=
  match rule with
  | none => none
  | some r =>
    let auto_fix := r.automation.auto_fix.getD {}
    if auto_fix.type = "transform" then
      match auto_fix.strategy, current_value with
      | some "snake_case", some v => some (to_snake_case v)
      | some "pascal_case_with_spaces", some v => some (to_pascal_case_with_spaces v)
      | _, _ => none
    else if auto_fix.type = "assign" then auto_fix.value
    else none

/-- `MEASURE_NAMING_RULE`. -/
def MEASURE_NAMING_RULE (ctx : PilotCtx) : Option StandardRule :=
  RULE_LOOKUP ctx "dax.naming.measure.snake_case"

/-- `COLUMN_NAMING_RULE`. -/
def COLUMN_NAMING_RULE (ctx : PilotCtx) : Option StandardRule :=
  RULE_LOOKUP ctx "dax.naming.column.pascal_case"

/-- `DISPLAY_FOLDER_RULE`. -/
def DISPLAY_FOLDER_RULE (ctx : PilotCtx) : Option StandardRule :=
  RULE_LOOKUP ctx "dax.naming.display_folder.allowed"

/-- `FORMAT_STRING_RULE`. -/
def FORMAT_STRING_RULE (ctx : PilotCtx) : Option StandardRule :=
  RULE_LOOKUP ctx "dax.formatting.measure.format_string_required"

/-- A Python `set` of strings, modelled as a sorted duplicate-free list
(membership agrees with the set; where the code asks for `next(iter(...))`
the head of this list stands for the implementation-defined first element —
no claim depends on that choice). -/
def pySetList (l : List String) : List String :=
  List.insertionSort (fun a b => a ≤ b) l.dedup

/-- `ALLOWED_MEASURE_FOLDERS = set(_allowed_values(DISPLAY_FOLDER_RULE))`. -/
def ALLOWED_MEASURE_FOLDERS (ctx : PilotCtx) : List String :=
  pySetList (_allowed_values (DISPLAY_FOLDER_RULE ctx))

/-- `DEFAULT_MEASURE_FOLDER`. -/
def DEFAULT_MEASURE_FOLDER (ctx : PilotCtx) : String :=
  pyOrStr (_auto_fix_value (DISPLAY_FOLDER_RULE ctx) none)
    ((ALLOWED_MEASURE_FOLDERS ctx).headD "_Final")

/-- `DEFAULT_FORMAT_STRING`. -/
def DEFAULT_FORMAT_STRING (ctx : PilotCtx) : String :=
  pyOrStr (_auto_fix_value (FORMAT_STRING_RULE ctx) none) "#,##0.00;(#,##0.00);-"

/-- `lookup_standards_message` (the modelled rule record always carries its
`description`, as every rule the builder produces does). -/
def lookup_standards_message (ctx : PilotCtx) (rule_id : Option String) (fallback : String) : String :=
  match rule_id with
  | some rid =>
    if rid = "" then fallback
    else
      match RULE_LOOKUP ctx rid with
      | some r => r.description
      | none => fallback
  | none => fallback

/-! ## `detect_dax_issues` and its text normalisation -/

/-- Scan for the first `*/` and return the characters after it. -/
def dropToClose : List Char → Option (List Char)
  | [] => none
  | '*' :: '/' :: cs => some cs
  | _ :: cs => dropToClose cs

theorem dropToCloseLen :
    ∀ l r : List Char, dropToClose l = some r → r.length < l.length := by
  intro l
  induction l using dropToClose.induct with
  | case1 => simp [dropToClose]
  | case2 cs =>
    intro r h
    simp [dropToClose] at h
    subst h
    simp
    omega
  | case3 c cs hpat ih =>
    intro r h
    have hstep : dropToClose (c :: cs) = dropToClose cs := by
      rw [dropToClose.eq_def]
      split
      · rename_i heq
        simp at heq
      · rename_i cs1 heq
        obtain ⟨h1, h2⟩ := List.cons.inj heq
        exact (hpat cs1 h1 h2).elim
      · rename_i hd tl hno heq
        obtain ⟨h1, h2⟩ := List.cons.inj heq
        rw [h2]
    rw [hstep] at h
    have := ih r h
    simp
    omega

/-- Worker for `stripBlockComments`.  The fuel argument only discharges
termination (every recursive call is on a strictly shorter list, see
`dropToCloseLen`, so `l.length` fuel is never exhausted); it keeps the
function kernel-reducible. -/
def stripBlockCommentsGo : Nat → List Char → List Char
  | _, [] => []
  | 0, l => l
  | fuel + 1, '/' :: '*' :: cs =>
    match dropToClose cs with
    | some rest => stripBlockCommentsGo fuel rest
    | none => '/' :: '*' :: cs
  | fuel + 1, c :: cs => c :: stripBlockCommentsGo fuel cs

/-- `re.sub(r"/\*.*?\*/", "", s, flags=re.S)`: repeatedly delete the
leftmost `/*`…`*/` span (shortest, because the scan for `*/` stops at the
first occurrence); an unclosed `/*` matches nothing and the remainder is
kept verbatim. -/
def stripBlockComments (l : List Char) : List Char :=
  stripBlockCommentsGo l.length l

end PbipSpec

namespace PbipSpec

/-- The line-boundary characters recognised by Python's `str.splitlines`. -/
def isLineBreak (c : Char) : Bool :=
  c = '\n' || c = '\r' || c = '\x0b' || c = '\x0c' ||
  c = '\x1c' || c = '\x1d' || c = '\x1e' || c = '\x85' ||
  c = '\u2028' || c = '\u2029'

/-- Worker for `splitlines`: accumulate the current line (reversed) and cut
at every line boundary, treating `\r\n` as a single boundary; no trailing
empty line is produced. -/
def splitlinesGo : List Char → List Char → List (List Char)
  | '\r' :: '\n' :: cs, acc => acc.reverse :: splitlinesGo cs []
  | c :: cs, acc =>
    if isLineBreak c then acc.reverse :: splitlinesGo cs []
    else splitlinesGo cs (c :: acc)
  | [], acc => if acc = [] then [] else [acc.reverse]

/-- Python `str.splitlines()`. -/
def splitlines (l : List Char) : List (List Char) :=
  splitlinesGo l []

/-- `s.split(ab, 1)[0]` for a two-character separator `a ++ b`: the text
before the first occurrence of the separator (the whole text when the
separator does not occur). -/
def cutAt2 (a b : Char) : List Char → List Char
  | x :: y :: cs => if x = a && y = b then [] else x :: cutAt2 a b (y :: cs)
  | l => l

/-- The comment-free, non-blank lines of a DAX expression: strip `/*`…`*/`
block comments, split into lines, cut each line at `//` and at `--`, and
keep the lines whose remainder is not pure whitespace. -/
def daxLines (expr : String) : List (List Char) :=
  ((splitlines (stripBlockComments expr.data)).map
      (fun raw => cutAt2 '-' '-' (cutAt2 '/' '/' raw))).filter
    (fun ln => ln.any (fun c => !pyIsSpace c))

/-- `normalized = "\n".join(lines)` in `detect_dax_issues`. -/
def normalizeDax (expr : String) : List Char :=
  List.intercalate ['\n'] (daxLines expr)

/-- Python's substring test `needle in hay`. -/
def containsSub (needle : List Char) : List Char → Bool
  | [] => needle.isEmpty
  | c :: t => needle.isPrefixOf (c :: t) || containsSub needle t

/-- Scan for the first `)` and return the characters before it together with
the characters after it. -/
def findParenClose : List Char → Option (List Char × List Char)
  | [] => none
  | ')' :: cs => some ([], cs)
  | c :: cs =>
    match findParenClose cs with
    | some (g, r) => some (c :: g, r)
    | none => none

theorem findParenCloseLen :
    ∀ l g r : List Char, findParenClose l = some (g, r) → r.length < l.length := by
  intro l
  induction l with
  | nil => simp [findParenClose]
  | cons c cs ih =>
    intro g r h
    by_cases hc : c = ')'
    · subst hc
      simp [findParenClose] at h
      obtain ⟨h1, h2⟩ := h
      subst h2
      simp
    · have hstep : findParenClose (c :: cs) =
          match findParenClose cs with
          | some (g, r) => some (c :: g, r)
          | none => none := by
        rw [findParenClose.eq_def]
        split
        · rename_i heq
          simp at heq
        · rename_i cs1 heq
          obtain ⟨h1, h2⟩ := List.cons.inj heq
          exact (hc h1).elim
        · rename_i hd tl hno heq
          obtain ⟨h1, h2⟩ := List.cons.inj heq
          subst h1
          subst h2
          rfl
      rw [hstep] at h
      cases hfp : findParenClose cs with
      | none => rw [hfp] at h; simp at h
      | some p =>
        rw [hfp] at h
        obtain ⟨g1, r1⟩ := p
        simp at h
        obtain ⟨h1, h2⟩ := h
        subst h2
        have := ih g1 r1 hfp
        simp
        omega

/-- Try to match the regex `ALL\s*\(([^\)]+)\)` at the head of the list;
on success return the captured group and the remainder after the match. -/
def matchAllAt : List Char → Option (List Char × List Char)
  | 'A' :: 'L' :: 'L' :: rest =>
    match (rest.dropWhile pyIsSpace : List Char) with
    | '(' :: rest3 =>
      match findParenClose rest3 with
      | some (g, r) => if g = [] then none else some (g, r)
      | none => none
    | _ => none
  | _ => none

theorem matchAllAtLen :
    ∀ l g r : List Char, matchAllAt l = some (g, r) → r.length < l.length := by
  intro l g r h
  rw [matchAllAt.eq_def] at h
  split at h
  · rename_i rest
    split at h
    · rename_i rest3 heq
      split at h
      · rename_i g1 r1 hfp
        split at h
        · simp at h
        · simp at h
          obtain ⟨h1, h2⟩ := h
          have hr : r.length < rest3.length := by
            rw [← h2]
            exact findParenCloseLen rest3 g1 r1 hfp
          have hrest3 : rest3.length < (rest.dropWhile pyIsSpace).length := by
            rw [heq]; simp
          have hdw : (rest.dropWhile pyIsSpace).length ≤ rest.length := dropWhileLenLe _ _
          simp
          omega
      · simp at h
    · simp at h
  · simp at h


/-- Worker for `scanAllTable`.  As with `stripBlockCommentsGo`, the fuel
argument only discharges termination (each recursive call is on a strictly
shorter list by `matchAllAtLen`, so `l.length` fuel never runs out). -/
def scanAllGo : Nat → List Char → Bool
  | _, [] => false
  | 0, _ => false
  | fuel + 1, c :: cs =>
    match matchAllAt (c :: cs) with
    | some (g, r) => if g.contains '[' then scanAllGo fuel r else true
    | none => scanAllGo fuel cs

/-- The `for match in re.finditer(r"ALL\s*\(([^\)]+)\)", upper)` loop of
`detect_dax_issues`: `true` iff some (left-to-right, non-overlapping) match
has a captured group without `[` — the loop appends one issue and breaks at
the first such match. -/
def scanAllTable (l : List Char) : Bool :=
  scanAllGo l.length l

end PbipSpec

namespace PbipSpec

/-- One finding of the anti-pattern scanner (`rule_id` / `rule` dict). -/
structure DaxIssue where
  rule_id : String
  rule : String
deriving Repr, DecidableEq

/-- `detect_dax_issues` from the pilot pipeline.  Each `for` loop that
appends at most one issue and breaks is rendered as a conditional singleton;
the five checks are concatenated in program order. -/
def detect_dax_issues (ctx : PilotCtx) (expression : String) : List DaxIssue :=
  if expression = "" then []
  else
    let lines := daxLines expression
    let normalized := List.intercalate ['\n'] lines
    let upper := normalized.map Char.toUpper
    (if normalized.contains '/' && !containsSub "DIVIDE(".data upper then
      [{ rule_id := "dax.coding.division"
         rule := lookup_standards_message ctx (some "dax.coding.division")
           "Use DIVIDE() instead of the raw division operator to avoid division-by-zero." }]
     else [])
    ++ (if containsSub "COUNT(".data upper && !containsSub "COUNTROWS(".data upper then
      [{ rule_id := "dax.coding.counting"
         rule := lookup_standards_message ctx (some "dax.coding.counting")
           "Prefer COUNTROWS() over COUNT(<column>) for row counting." }]
     else [])
    ++ (if 4 ≤ lines.length && !containsSub "VAR ".data upper then
      [{ rule_id := "dax.anti_pattern.giant_measures_without_var"
         rule := lookup_standards_message ctx (some "dax.anti_pattern.giant_measures_without_var")
           "Long DAX measures should declare intermediate VAR blocks for readability." }]
     else [])
    ++ (if scanAllTable upper then
      [{ rule_id := "dax.anti_pattern.all_table_when_all_column_is_enough"
         rule := lookup_standards_message ctx
           (some "dax.anti_pattern.all_table_when_all_column_is_enough")
           "Use ALL(<column>) instead of ALL(<table>) to preserve slicer context when possible." }]
     else [])
    ++ (if containsSub "LOOKUPVALUE(".data upper then
      [{ rule_id := "dax.anti_pattern.using_strings_instead_of_ids_for_joins_f"
         rule := lookup_standards_message ctx
           (some "dax.anti_pattern.using_strings_instead_of_ids_for_joins_f")
           "LOOKUPVALUE detected. Prefer model relationships or TREATAS for relational filtering." }]
     else [])

/-! ## Model structure and `validate_standards` -/

/-- A measure entry as `load_model_structure` builds it: `name` is always a
present string (entries without a name are skipped), the other fields may be
`None`; `table` is the enclosing table's name, which is `None` when the
table dict carries no name. -/
structure MeasureEntry where
  table : Option String
  name : String
  display_folder : Option String := none
  format_string : Option String := none
  expression : Option String := none
deriving Repr, DecidableEq

/-- A column entry as `load_model_structure` builds it. -/
structure ColumnEntry where
  table : Option String
  name : String
  display_folder : Option String := none
deriving Repr, DecidableEq

/-- The parsed model structure (`tables` / `measures` / `columns` dict).
`validate_standards` receives either this dict — always truthy, it has three
keys even when the lists are empty — or the empty dict for an unparseable
artifact, modelled as `Option ModelStructure` with `none` for the latter. -/
structure ModelStructure where
  tables : List String := []
  measures : List MeasureEntry := []
  columns : List ColumnEntry := []
deriving Repr, DecidableEq

/-- The `suggested` payload of an issue: a plain replacement value or the
sorted allowed-folder list. -/
inductive Suggested
  | one (v : String)
  | many (vs : List String)
deriving Repr, DecidableEq

/-- An entry of the `issues` list of a validation result (union of the key
sets the validator emits; absent keys are `none`). -/
structure Issue where
  entity : String
  name : String
  rule_id : Option String
  rule : String
  found : Option String := none
  suggested : Option Suggested := none
deriving Repr, DecidableEq

/-- An entry of the `auto_fixes` list; a missing `action` key is `none`. -/
structure AutoFix where
  entity : String
  table : Option String
  current : String
  action : Option String := none
  suggested : Option String := none
  rule_id : Option String := none
deriving Repr, DecidableEq

/-- The `if table_name:`-guarded auto-fix append used by every
display-folder / format-string check of `validate_standards`: a fix is
emitted only when the entity's table name is truthy (and the branch's extra
condition holds). -/
def guardedFix (table : Option String) (extra : Bool) (entity current action suggested : String)
    (rule_id : Option String) : List AutoFix :=
  match table with
  | some t =>
    if t ≠ "" && extra then
      [{ entity := entity, table := some t, current := current
         action := some action, suggested := some suggested, rule_id := rule_id }]
    else []
  | none => []

/-- The measure naming check of `validate_standards` (pattern mismatch ⇒
one issue and one auto-fix carrying no `action` key). -/
def measureNamingPair (ctx : PilotCtx) (m : MeasureEntry) : List Issue × List AutoFix :=
  let naming_rule := MEASURE_NAMING_RULE ctx
  let pattern := (_pattern_for_rule naming_rule).getD CasePattern.snake
  if !patMatch pattern m.name then
    let suggested := pyOrStr (_auto_fix_value naming_rule (some m.name)) (to_snake_case m.name)
    ([{ entity := "measure", name := m.name
        rule_id := naming_rule.map (fun r => r.id)
        rule := match naming_rule with
          | some r => r.description
          | none => "DAX measures must follow snake_case with a semantic prefix"
        suggested := some (.one suggested) }],
     [{ entity := "measure", table := m.table, current := m.name
        suggested := some suggested
        rule_id := naming_rule.map (fun r => r.id) }])
  else ([], [])

/-- The measure display-folder check of `validate_standards`: a missing
folder or a folder outside the allowed set yields one issue, plus a
`set_display_folder` auto-fix when the table name is truthy (and, in the
outside-allowed branch, the allowed set is non-empty). -/
def measureFolderPair (ctx : PilotCtx) (m : MeasureEntry) : List Issue × List AutoFix :=
  let display_folder := m.display_folder
  let folder_rule := DISPLAY_FOLDER_RULE ctx
  let allowed_folders :=
    if ALLOWED_MEASURE_FOLDERS ctx ≠ [] then ALLOWED_MEASURE_FOLDERS ctx
    else pySetList (_allowed_values folder_rule)
  let default_folder := pyOrStr (_auto_fix_value folder_rule none) (DEFAULT_MEASURE_FOLDER ctx)
  if !pyTruthy display_folder then
    ([{ entity := "measure", name := m.name
        rule_id := folder_rule.map (fun r => r.id)
        rule := match folder_rule with
          | some r => r.description
          | none => "Measures should define a display folder for report organization"
        suggested := some (.one default_folder) }],
     guardedFix m.table true "measure" m.name "set_display_folder" default_folder
       (folder_rule.map (fun r => r.id)))
  else if allowed_folders ≠ [] && !allowed_folders.contains (display_folder.getD "") then
    ([{ entity := "measure", name := m.name
        rule_id := folder_rule.map (fun r => r.id)
        rule := match folder_rule with
          | some r => r.description
          | none => "Display folder should match approved MCP catalog"
        found := display_folder
        suggested := some (.many (List.insertionSort (fun a b => a ≤ b) allowed_folders)) }],
     guardedFix m.table (!allowed_folders.isEmpty) "measure" m.name "set_display_folder"
       default_folder (folder_rule.map (fun r => r.id)))
  else ([], [])

/-- The measure format-string check of `validate_standards`. -/
def measureFormatPair (ctx : PilotCtx) (m : MeasureEntry) : List Issue × List AutoFix :=
  let format_rule := FORMAT_STRING_RULE ctx
  if !pyTruthy m.format_string then
    let suggested_format := pyOrStr (_auto_fix_value format_rule none) (DEFAULT_FORMAT_STRING ctx)
    ([{ entity := "measure", name := m.name
        rule_id := format_rule.map (fun r => r.id)
        rule := match format_rule with
          | some r => r.description
          | none => "Measures should specify formatString for consistent presentation"
        suggested := some (.one suggested_format) }],
     guardedFix m.table true "measure" m.name "set_format_string" suggested_format
       (format_rule.map (fun r => r.id)))
  else ([], [])

/-- The anti-pattern findings for one measure, tagged with its identity. -/
def measureDaxIssues (ctx : PilotCtx) (m : MeasureEntry) : List Issue :=
  let expression : String := ⟨stripIf pyIsSpace (m.expression.getD "").data⟩
  (detect_dax_issues ctx expression).map (fun di =>
    { entity := "measure", name := m.name
      rule_id := some di.rule_id, rule := di.rule : Issue })

/-- The checks `validate_standards` runs for one measure, in program order:
naming pattern, display folder, format string, anti-pattern scan.  Returns
the issues and auto-fixes this measure contributes. -/
def measureChecks (ctx : PilotCtx) (m : MeasureEntry) : List Issue × List AutoFix :=
  ((measureNamingPair ctx m).1 ++ (measureFolderPair ctx m).1 ++
     (measureFormatPair ctx m).1 ++ measureDaxIssues ctx m,
   (measureNamingPair ctx m).2 ++ (measureFolderPair ctx m).2 ++ (measureFormatPair ctx m).2)

/-- The column naming check of `validate_standards`. -/
def columnNamingPair (ctx : PilotCtx) (col : ColumnEntry) : List Issue × List AutoFix :=
  let naming_rule := COLUMN_NAMING_RULE ctx
  let pattern := (_pattern_for_rule naming_rule).getD CasePattern.pascal
  if !patMatch pattern col.name then
    let friendly := pyOrStr (_auto_fix_value naming_rule (some col.name))
      (to_pascal_case_with_spaces col.name)
    ([{ entity := "column", name := col.name
        rule_id := naming_rule.map (fun r => r.id)
        rule := match naming_rule with
          | some r => r.description
          | none => "Columns should use PascalCase with optional spaces"
        suggested := some (.one friendly) }],
     [{ entity := "column", table := col.table, current := col.name
        suggested := some friendly
        rule_id := naming_rule.map (fun r => r.id) }])
  else ([], [])

/-- The column display-folder check of `validate_standards`: only a
present-but-disallowed folder is flagged (absent column folders are not a
violation). -/
def columnFolderPair (ctx : PilotCtx) (col : ColumnEntry) : List Issue × List AutoFix :=
  let display_folder := col.display_folder
  let folder_rule := DISPLAY_FOLDER_RULE ctx
  let allowed_folders :=
    if pyTruthy display_folder then
      if ALLOWED_MEASURE_FOLDERS ctx ≠ [] then ALLOWED_MEASURE_FOLDERS ctx
      else pySetList (_allowed_values folder_rule)
    else []
  let default_folder := pyOrStr (_auto_fix_value folder_rule none) (DEFAULT_MEASURE_FOLDER ctx)
  if pyTruthy display_folder && allowed_folders ≠ [] &&
      !allowed_folders.contains (display_folder.getD "") then
    ([{ entity := "column", name := col.name
        rule_id := folder_rule.map (fun r => r.id)
        rule := match folder_rule with
          | some r => r.description
          | none => "Column display folders should use approved naming conventions"
        found := display_folder
        suggested := some (.many (List.insertionSort (fun a b => a ≤ b) allowed_folders)) }],
     guardedFix col.table (!allowed_folders.isEmpty) "column" col.name "set_display_folder"
       default_folder (folder_rule.map (fun r => r.id)))
  else ([], [])

/-- The checks `validate_standards` runs for one column: naming pattern and
— only when a display folder is present — the allowed-folder policy. -/
def columnChecks (ctx : PilotCtx) (col : ColumnEntry) : List Issue × List AutoFix :=
  ((columnNamingPair ctx col).1 ++ (columnFolderPair ctx col).1,
   (columnNamingPair ctx col).2 ++ (columnFolderPair ctx col).2)

/-- The result dict of `validate_standards` (the `skipped` dict carries no
`source` key; the regular result carries no `reason` key). -/
structure ValidationResult where
  status : String
  reason : Option String := none
  source : Option String := none
  issues : List Issue
  auto_fixes : List AutoFix
  issue_count : Nat
deriving Repr, DecidableEq

/-- The `issues` list `validate_standards` accumulates over the measures
and columns in encounter order. -/
def validateIssues (ctx : PilotCtx) (s : ModelStructure) : List Issue :=
  ((s.measures.map (measureChecks ctx)).map Prod.fst).flatten ++
    ((s.columns.map (columnChecks ctx)).map Prod.fst).flatten

/-- The `fixes` list `validate_standards` accumulates. -/
def validateFixes (ctx : PilotCtx) (s : ModelStructure) : List AutoFix :=
  ((s.measures.map (measureChecks ctx)).map Prod.snd).flatten ++
    ((s.columns.map (columnChecks ctx)).map Prod.snd).flatten

/-- `validate_standards` from the pilot pipeline: short-circuit for a falsy
(unparseable) structure; otherwise run the per-measure and per-column checks
in encounter order, appending to shared `issues` / `fixes` lists. -/
def validate_standards (ctx : PilotCtx) (source : String)
    (structure? : Option ModelStructure) : ValidationResult :=
  match structure? with
  | none =>
    { status := "skipped"
      reason := some "Structure could not be parsed from the artifact."
      issues := [], auto_fixes := [], issue_count := 0 }
  | some s =>
    { status := if validateIssues ctx s = [] then "ok" else "issues_found"
      source := some source
      issues := validateIssues ctx s
      auto_fixes := validateFixes ctx s
      issue_count := (validateIssues ctx s).length }

end PbipSpec

namespace PbipSpec

/-! ## `generate_tmdl_corrections` -/

/-- `value.replace(t, r)` for a one-character target. -/
def replaceChar (t : Char) (r : List Char) : List Char → List Char
  | [] => []
  | c :: cs => if c = t then r ++ replaceChar t r cs else c :: replaceChar t r cs

/-- `escape_single_quotes`: double every single quote. -/
def escape_single_quotes (v : String) : String :=
  ⟨replaceChar '\'' ['\'', '\''] v.data⟩

/-- `escape_brackets`: double every closing bracket. -/
def escape_brackets (v : String) : String :=
  ⟨replaceChar ']' [']', ']'] v.data⟩

/-- The doubling of `"` applied to format strings. -/
def escape_double_quotes (v : String) : String :=
  ⟨replaceChar '"' ['"', '"'] v.data⟩

/-- `qualify` from `generate_tmdl_corrections`. -/
def qualify (entity : String) (table : String) (name : String) : String :=
  let table_ref := if table ≠ "" then "'" ++ escape_single_quotes table ++ "'" else ""
  let identifier := "[" ++ escape_brackets name ++ "]"
  let entKeyword := if entity = "measure" then "MEASURE" else "COLUMN"
  entKeyword ++ " " ++ table_ref ++ identifier

/-- The body of the per-fix loop in `generate_tmdl_corrections`: `none` when
the fix is skipped (`not table or not name or suggested is None`), otherwise
the emitted statement line.  A missing `action` key defaults to `"rename"`. -/
def renderFix (f : AutoFix) : Option String :=
  let action := f.action.getD "rename"
  match f.table with
  | none => none
  | some t =>
    if t = "" then none
    else if f.current = "" then none
    else
      match f.suggested with
      | none => none
      | some sug =>
        let qualified := qualify f.entity t f.current
        some (if action = "rename" then
                "ALTER " ++ qualified ++ " RENAME TO [" ++ escape_brackets sug ++ "];"
              else if action = "set_display_folder" then
                "ALTER " ++ qualified ++ " SET DISPLAYFOLDER = '" ++
                  escape_single_quotes sug ++ "';"
              else if action = "set_format_string" then
                "ALTER " ++ qualified ++ " SET FORMAT_STRING = " ++ "\"" ++
                  escape_double_quotes sug ++ "\";"
              else
                "// Pending support for action '" ++ action ++ "' on " ++ f.entity ++
                  " " ++ t ++ "." ++ f.current ++ " -> " ++ sug)

/-- `generate_tmdl_corrections` from the pilot pipeline. -/
def generate_tmdl_corrections (fixes : List AutoFix) : String :=
  if fixes = [] then ""
  else
    String.intercalate "\n"
      ("// Suggested safe statements (review before applying)" :: fixes.filterMap renderFix)
      ++ "\n"

/-! ## Domain classification -/

/-- The `DOMAIN_KEYWORDS` module table.  The keyword collections are Python
sets; only the number of matching keywords per domain is observable, so the
iteration order chosen here (source-listing order) is irrelevant. -/
def DOMAIN_KEYWORDS : List (String × List String) :=
  [("sales", ["sales", "revenue", "margin", "customer", "crm", "pipeline", "quote", "deal"]),
   ("finance", ["finance", "financial", "ledger", "pnl", "balance", "cash", "gl", "account"]),
   ("supply_chain", ["inventory", "warehouse", "logistics", "supply", "demand", "shipment", "stock"]),
   ("marketing", ["campaign", "marketing", "lead", "click", "impression", "conversion"]),
   ("hr", ["hr", "employee", "headcount", "attrition", "payroll", "recruit"])]

/-- Python `str.lower()` on the scanned text (ASCII lowering; the keyword
table is pure ASCII, so non-ASCII case folding cannot change any match). -/
def lowerChars (s : String) : List Char :=
  s.data.map Char.toLower

/-- The score one scanned text value contributes to one domain:
`base` when the domain name occurs as a substring, plus 1 per occurring
keyword.  This merges the code's consecutive `counter[domain] += …`
increments for a single (value, domain) pair, which is observationally
identical on the counter. -/
def domainScoreFor (lowered : List Char) (domain : String) (kws : List String) (base : Nat) : Nat :=
  (if containsSub domain.data lowered then base else 0) +
    (kws.filter (fun kw => containsSub kw.data lowered)).length

/-- `collections.Counter` increment: add `n` to an existing key in place, or
append a new key (insertion order); a zero increment never touches the
counter (the code only executes `+=` on a match). -/
def bumpCounter (c : List (String × Nat)) (key : String) (n : Nat) : List (String × Nat) :=
  if n = 0 then c
  else if c.any (fun e => e.1 = key) then
    c.map (fun e => if e.1 = key then (e.1, e.2 + n) else e)
  else c ++ [(key, n)]

/-- Scan one lowered text value against every domain of `DOMAIN_KEYWORDS`
(in table order), bumping the counter. -/
def scanInto (c : List (String × Nat)) (lowered : List Char) (base : Nat) : List (String × Nat) :=
  DOMAIN_KEYWORDS.foldl (fun acc dk => bumpCounter acc dk.1 (domainScoreFor lowered dk.1 dk.2 base)) c

/-- A metadata value under one of the six keys the classifier reads: a
string, a list (whose items reach the scan through `str(...)`), or any
other JSON value (ignored). -/
inductive MetaValue
  | str (s : String)
  | list (items : List String)
  | other
deriving Repr, DecidableEq

/-- The metadata dict, restricted to the six keys
`infer_domains_from_metadata` reads. -/
structure Metadata where
  domain : Option MetaValue := none
  business_domain : Option MetaValue := none
  domains : Option MetaValue := none
  tags : Option MetaValue := none
  topics : Option MetaValue := none
  business_units : Option MetaValue := none
deriving Repr, DecidableEq

/-- The `values` list collected by `infer_domains_from_metadata`, in key
order. -/
def metaValues (md : Metadata) : List String :=
  [md.domain, md.business_domain, md.domains, md.tags, md.topics, md.business_units].foldl
    (fun acc v =>
      match v with
      | some (.str s) => acc ++ [s]
      | some (.list items) => acc ++ items
      | _ => acc) []

/-- `infer_domains_from_metadata`: every collected value contributes +2 for
a domain-name substring and +1 per keyword. -/
def infer_domains_from_metadata (md : Metadata) : List (String × Nat) :=
  (metaValues md).foldl (fun c v => scanInto c (lowerChars v) 2) []

/-- `infer_domains_from_structure`: +3/+1 per table name, +2/+1 per column
name; the falsy (unparseable) structure contributes nothing. -/
def infer_domains_from_structure (st : Option ModelStructure) : List (String × Nat) :=
  match st with
  | none => []
  | some s =>
    let c1 := s.tables.foldl (fun c t => scanInto c (lowerChars t) 3) []
    s.columns.foldl (fun c col => scanInto c (lowerChars col.name) 2) c1

/-- `Counter.update`: add the right counter into the left one, iterating the
right counter in its insertion order. -/
def counterUpdate (c other : List (String × Nat)) : List (String × Nat) :=
  other.foldl (fun acc e => bumpCounter acc e.1 e.2) c

/-- The descending, insertion-stable ordering `Counter.most_common()` uses
(elements with equal counts keep first-encounter order). -/
def rankCounter (c : List (String × Nat)) : List (String × Nat) :=
  List.insertionSort (fun a b => a.2 ≥ b.2) c

/-- `determine_primary_domain` from the pilot pipeline; `stem` is
`source.stem.lower()`'s pre-image (the file-name stem). -/
def determine_primary_domain (md : Metadata) (st : Option ModelStructure) (stem : String) :
    String × List (String × Nat) :=
  let c0 := counterUpdate (counterUpdate [] (infer_domains_from_metadata md))
    (infer_domains_from_structure st)
  let c := scanInto c0 (lowerChars stem) 2
  if c = [] then ("generic", [])
  else
    let ranked := rankCounter c
    let top_score := (ranked.headD ("", 0)).2
    let near_top := ranked.filter
      (fun item => decide (max 1 (top_score - 1) ≤ item.2) && decide (0 < item.2))
    if 1 < near_top.length then ("multi-domain", ranked)
    else ((ranked.headD ("", 0)).1, ranked)

/-- The counter assembled by the first three statements of
`determine_primary_domain` (metadata counts, structure counts, and the
file-name-stem scan), named so the resolution logic can be stated over
it. -/
def domainCounter (md : Metadata) (st : Option ModelStructure) (stem : String) :
    List (String × Nat) :=
  scanInto
    (counterUpdate (counterUpdate [] (infer_domains_from_metadata md))
      (infer_domains_from_structure st))
    (lowerChars stem) 2

end PbipSpec

namespace PbipSpec

/-! ## Shape lemmas for emitted auto-fixes -/

theorem guardedFix_mem {table : Option String} {extra : Bool}
    {entity current action suggested : String} {rule_id : Option String} {f : AutoFix}
    (h : f ∈ guardedFix table extra entity current action suggested rule_id) :
    f.action = some action ∧ f.suggested = some suggested ∧ f.current = current ∧
      ∃ t, f.table = some t ∧ t ≠ "" ∧ table = some t := by
  unfold guardedFix at h
  repeat split at h
  all_goals simp_all

theorem measureNamingPair_fix {ctx : PilotCtx} {m : MeasureEntry} {f : AutoFix}
    (h : f ∈ (measureNamingPair ctx m).2) : f.action = none ∧ f.table = m.table := by
  simp only [measureNamingPair] at h
  split at h
  · simp at h
    subst h
    exact ⟨rfl, rfl⟩
  · simp at h

theorem measureFolderPair_fix {ctx : PilotCtx} {m : MeasureEntry} {f : AutoFix}
    (h : f ∈ (measureFolderPair ctx m).2) :
    f.action = some "set_display_folder" ∧ ∃ t, f.table = some t ∧ t ≠ "" := by
  simp only [measureFolderPair] at h
  repeat (any_goals split at h)
  all_goals
    first
    | (obtain ⟨h1, h2, h3, t, h4, h5, h6⟩ := guardedFix_mem h
       exact ⟨h1, t, h4, h5⟩)
    | simp at h

theorem measureFormatPair_fix {ctx : PilotCtx} {m : MeasureEntry} {f : AutoFix}
    (h : f ∈ (measureFormatPair ctx m).2) :
    f.action = some "set_format_string" ∧ ∃ t, f.table = some t ∧ t ≠ "" := by
  simp only [measureFormatPair] at h
  repeat (any_goals split at h)
  all_goals
    first
    | (obtain ⟨h1, h2, h3, t, h4, h5, h6⟩ := guardedFix_mem h
       exact ⟨h1, t, h4, h5⟩)
    | simp at h

theorem columnNamingPair_fix {ctx : PilotCtx} {c : ColumnEntry} {f : AutoFix}
    (h : f ∈ (columnNamingPair ctx c).2) : f.action = none ∧ f.table = c.table := by
  simp only [columnNamingPair] at h
  split at h
  · simp at h
    subst h
    exact ⟨rfl, rfl⟩
  · simp at h

theorem columnFolderPair_fix {ctx : PilotCtx} {c : ColumnEntry} {f : AutoFix}
    (h : f ∈ (columnFolderPair ctx c).2) :
    f.action = some "set_display_folder" ∧ ∃ t, f.table = some t ∧ t ≠ "" := by
  simp only [columnFolderPair] at h
  repeat (any_goals split at h)
  all_goals
    first
    | (obtain ⟨h1, h2, h3, t, h4, h5, h6⟩ := guardedFix_mem h
       exact ⟨h1, t, h4, h5⟩)
    | simp at h

theorem mem_validate_fixes {ctx : PilotCtx} {src : String} {s : ModelStructure} {f : AutoFix} :
    f ∈ (validate_standards ctx src (some s)).auto_fixes ↔
      (∃ m ∈ s.measures, f ∈ (measureChecks ctx m).2) ∨
      (∃ c ∈ s.columns, f ∈ (columnChecks ctx c).2) := by
  simp [validate_standards, validateFixes, List.mem_flatten]

theorem measureChecks_fix_cases {ctx : PilotCtx} {m : MeasureEntry} {f : AutoFix}
    (h : f ∈ (measureChecks ctx m).2) :
    f ∈ (measureNamingPair ctx m).2 ∨ f ∈ (measureFolderPair ctx m).2 ∨
      f ∈ (measureFormatPair ctx m).2 := by
  simpa [measureChecks, List.mem_append, or_assoc] using h

theorem columnChecks_fix_cases {ctx : PilotCtx} {c : ColumnEntry} {f : AutoFix}
    (h : f ∈ (columnChecks ctx c).2) :
    f ∈ (columnNamingPair ctx c).2 ∨ f ∈ (columnFolderPair ctx c).2 := by
  simpa [columnChecks, List.mem_append] using h

end PbipSpec

namespace PbipSpec

/-! ## Shared concrete fixtures -/

/-- The empty-rules catalog literal `load_catalog` falls back to. -/
def emptyCatalog : Catalog :=
  { version := none, rule_count := 0, sources_legacy_config := none, rules := [] }

/-- The pilot module state in a deployment without any standards files
(the repository as shipped): `load_catalog()` returns the empty-rules
catalog. -/
def emptyCtx : PilotCtx := { catalog := emptyCatalog }

/-- A one-measure structure whose measure violates the snake_case rule. -/
def c3Structure : ModelStructure :=
  { measures := [{ table := some "Sales", name := "TotalSales" }] }

/-- A legacy configuration whose two anti-pattern strings share their first
40 slug characters. -/
def c2cfg : LegacyConfig :=
  { DAX_Templates := some { anti_patterns :=
      ["using strings instead of ids for joins fast",
       "using strings instead of ids for joins fear"] } }

/-- A legacy configuration exercising every rule family, whose slugs stay
distinct after slugging and truncation. -/
def c2cfgDistinct : LegacyConfig :=
  { DAX_Templates := some
      { naming := { folders := ["KPIs"] }
        coding := [("Use VAR", "g1"), ("Format code", "g2")]
        performance := [("iterators", "g3"), ("relationships", "g4")]
        anti_patterns := ["Avoid FILTER as a table", "Nested iterators"] }
    Power_Query_guide := some
      { formatting := [("indentation", "g5"), ("step names", "g6")]
        doc_block_required := some ["Purpose"] } }

/-! ## Claim theorems -/

/-- C1 counterexample: `build_catalog` invoked with an empty legacy
configuration does **not** return an empty-rules catalog — the three base
rules (measure naming, column naming, format string) are always emitted, so
the claim's parenthetical equivalence is false. -/
theorem c1_counterexample :
    (build_catalog "2026-01-01T00:00:00+00:00" none (some {})).rules ≠ [] := by
  intro h
  have h3 : (build_catalog "2026-01-01T00:00:00+00:00" none (some {})).rules.length = 3 := rfl
  rw [h] at h3
  simp at h3

/-- C1 (amended): when the legacy source file is absent and no persisted
catalog exists, `load_catalog` returns the empty-rules catalog rather than
failing; `build_catalog` on an empty legacy configuration also does not
fail, but returns a catalog holding exactly the three always-emitted base
rules. -/
theorem c1_load_catalog_empty_fallback (now : String) :
    load_catalog now none none =
      { version := none, rule_count := 0, sources_legacy_config := none, rules := [] } ∧
    ((build_catalog now none (some {})).rules.map (fun r => r.id)) =
      ["dax.naming.measure.snake_case", "dax.naming.column.pascal_case",
       "dax.formatting.measure.format_string_required"] ∧
    (build_catalog now none (some {})).rule_count = 3 :=
  ⟨rfl, rfl, rfl⟩

/-- C2 counterexample: rule ids are **not** pairwise distinct for every
legacy configuration — two anti-pattern strings whose slugs agree on the
first 40 characters produce the same truncated id (there is no content hash
in the code). -/
theorem c2_counterexample :
    ¬ (((build_catalog "2026-01-01T00:00:00+00:00" none (some c2cfg)).rules.map
        (fun r => r.id)).Nodup) := by
  decide

/-- C3 counterexample: an auto-fix emitted by `validate_standards` can have
a null `table` — a naming violation inside a table dict that carries no
name is emitted with `table = None`. -/
theorem c3_counterexample :
    ((validate_standards emptyCtx "src"
        (some { measures := [{ table := none, name := "TotalSales" }] })).auto_fixes.any
      (fun f => f.table.isNone)) = true := by
  rfl

/-- C3 (amended): every auto-fix carries the entity's current name; every
auto-fix that carries an explicit `action` (`set_display_folder` /
`set_format_string`) has a non-null, non-empty `table`; naming auto-fixes
(no `action` key) inherit the entity's possibly-null table, and the patch
generator skips any fix whose `table` is null. -/
theorem c3_autofix_fields (ctx : PilotCtx) (src : String) (s : ModelStructure) :
    (∀ f ∈ (validate_standards ctx src (some s)).auto_fixes,
       f.action.isSome → ∃ t, f.table = some t ∧ t ≠ "") ∧
    (∀ f : AutoFix, f.table = none → renderFix f = none) := by
  constructor
  · intro f hf ha
    rcases mem_validate_fixes.mp hf with ⟨m, hm, hfm⟩ | ⟨c, hc, hfc⟩
    · rcases measureChecks_fix_cases hfm with h | h | h
      · obtain ⟨h1, _⟩ := measureNamingPair_fix h
        rw [h1] at ha
        simp at ha
      · exact (measureFolderPair_fix h).2
      · exact (measureFormatPair_fix h).2
    · rcases columnChecks_fix_cases hfc with h | h
      · obtain ⟨h1, _⟩ := columnNamingPair_fix h
        rw [h1] at ha
        simp at ha
      · exact (columnFolderPair_fix h).2
  · intro f hf
    unfold renderFix
    rw [hf]

/-- C3 witness: the amended theorem applied to a concrete context,
structure and fix with all hypotheses discharged. -/
theorem c3_witness :
    ∃ t, ({ entity := "measure", table := some "Sales", current := "TotalSales",
            action := some "set_display_folder", suggested := some "_Final",
            rule_id := none } : AutoFix).table = some t ∧ t ≠ "" :=
  (c3_autofix_fields emptyCtx "src" c3Structure).1 _ (by decide) (by decide)

/-- C6: `validate_standards` returns `status = "skipped"` together with
empty issues, empty auto-fixes, `issue_count = 0` and an explanatory reason
exactly when the structure is unparseable; for a parseable structure,
`status = "issues_found"` iff `issue_count > 0` and `status = "ok"`
otherwise; `issue_count` always equals the length of `issues` (and, being a
total function, the validator never raises). -/
theorem c6_validate_status (ctx : PilotCtx) (src : String) (st : Option ModelStructure) :
    ((validate_standards ctx src st).status = "skipped" ↔ st = none) ∧
    (st = none →
      (validate_standards ctx src st).issues = [] ∧
      (validate_standards ctx src st).auto_fixes = [] ∧
      (validate_standards ctx src st).issue_count = 0 ∧
      (validate_standards ctx src st).reason =
        some "Structure could not be parsed from the artifact.") ∧
    ((validate_standards ctx src st).status = "issues_found" ↔
      st ≠ none ∧ 0 < (validate_standards ctx src st).issue_count) ∧
    ((validate_standards ctx src st).status = "ok" ↔
      st ≠ none ∧ (validate_standards ctx src st).issue_count = 0) ∧
    (validate_standards ctx src st).issue_count =
      (validate_standards ctx src st).issues.length := by
  cases st with
  | none =>
    refine ⟨by simp [validate_standards], fun _ => ⟨rfl, rfl, rfl, rfl⟩, ?_, ?_, rfl⟩
    · constructor
      · intro hstat
        have h2 : ("skipped" : String) = "issues_found" := hstat
        exact absurd h2 (by decide)
      · rintro ⟨hne, _⟩
        exact absurd rfl hne
    · constructor
      · intro hstat
        have h2 : ("skipped" : String) = "ok" := hstat
        exact absurd h2 (by decide)
      · rintro ⟨hne, _⟩
        exact absurd rfl hne
  | some s =>
    refine ⟨?_, by simp, ?_, ?_, rfl⟩
    · constructor
      · intro hstat
        simp only [validate_standards] at hstat
        split at hstat
        · exact absurd hstat (by decide)
        · exact absurd hstat (by decide)
      · intro h
        cases h
    · constructor
      · intro hstat
        refine ⟨by simp, ?_⟩
        simp only [validate_standards] at hstat ⊢
        split at hstat
        · exact absurd hstat (by decide)
        · rename_i hJ
          simpa using List.length_pos.mpr hJ
      · rintro ⟨_, hpos⟩
        simp only [validate_standards] at hpos ⊢
        split
        · rename_i hJ
          rw [hJ] at hpos
          simp at hpos
        · rfl
    · constructor
      · intro hstat
        refine ⟨by simp, ?_⟩
        simp only [validate_standards] at hstat ⊢
        split at hstat
        · rename_i hJ
          simp [hJ]
        · exact absurd hstat (by decide)
      · rintro ⟨_, hzero⟩
        simp only [validate_standards] at hzero ⊢
        split
        · rfl
        · rename_i hJ
          rw [List.length_eq_zero] at hzero
          exact absurd hzero hJ

/-- C6 witness: the status characterisation applied at concrete inputs in
both the unparseable and the parseable case. -/
theorem c6_witness :
    (validate_standards emptyCtx "src" none).status = "skipped" ∧
    (validate_standards emptyCtx "src" (some c3Structure)).status = "issues_found" := by
  constructor
  · exact (c6_validate_status emptyCtx "src" none).1.mpr rfl
  · exact (c6_validate_status emptyCtx "src" (some c3Structure)).2.2.1.mpr
      ⟨by simp, by decide⟩

theorem anyIteAppend (c : Prop) [Decidable c] (i : DaxIssue) (l : List DaxIssue)
    (p : DaxIssue → Bool) :
    ((if c then [i] else []) ++ l).any p = ((decide c) && p i || l.any p) := by
  by_cases hc : c <;> simp [hc]

theorem anyIteSingleton (c : Prop) [Decidable c] (i : DaxIssue) (p : DaxIssue → Bool) :
    (if c then [i] else []).any p = ((decide c) && p i) := by
  by_cases hc : c <;> simp [hc]

/-- C8: `detect_dax_issues` emits the `dax.coding.division` finding exactly
when, after comment stripping, the remaining text contains `/` and its
uppercased form does not contain `DIVIDE(`; in particular `[A]/[B]` is
flagged and `DIVIDE([A],[B])` is not — for every rule catalog. -/
theorem c8_division_rule (ctx : PilotCtx) (expr : String) :
    ((detect_dax_issues ctx expr).any (fun i => i.rule_id == "dax.coding.division")) =
      ((normalizeDax expr).contains '/' &&
        !containsSub "DIVIDE(".data ((normalizeDax expr).map Char.toUpper)) ∧
    ((detect_dax_issues ctx "[A]/[B]").any (fun i => i.rule_id == "dax.coding.division")) = true ∧
    ((detect_dax_issues ctx "DIVIDE([A],[B])").any
        (fun i => i.rule_id == "dax.coding.division")) = false := by
  refine ⟨?_, rfl, rfl⟩
  by_cases hexpr : expr = ""
  · subst hexpr
    rfl
  · simp only [detect_dax_issues, hexpr, if_false, normalizeDax]
    simp only [List.append_assoc, anyIteAppend, anyIteSingleton]
    simp

/-- C9: the patch generator returns the empty string for an empty fix list,
and renders the single rename fix of the claim as a header comment plus
exactly one `ALTER … RENAME TO …;` statement; single quotes in table names
and `]` in bracketed identifiers are doubled. -/
theorem c9_generate_tmdl :
    generate_tmdl_corrections [] = "" ∧
    generate_tmdl_corrections
        [{ entity := "measure", table := some "Sales", current := "TotalSales",
           suggested := some "total_sales", action := some "rename" }] =
      "// Suggested safe statements (review before applying)\nALTER MEASURE 'Sales'[TotalSales] RENAME TO [total_sales];\n" ∧
    escape_single_quotes "O'Brien" = "O''Brien" ∧
    escape_brackets "A]B" = "A]]B" :=
  ⟨rfl, rfl, rfl, rfl⟩

/-- C10: the auto-fixes carrying no `action` key are exactly the naming
fixes, and the patch generator renders any action-less fix (with table,
name and suggestion present) as an `ALTER … RENAME TO …;` statement, so a
missing action defaults to a rename at the patch-generation interface. -/
theorem c10_default_rename (ctx : PilotCtx) (src : String) (s : ModelStructure) :
    (∀ f ∈ (validate_standards ctx src (some s)).auto_fixes,
       (f.action = none ↔
         (∃ m ∈ s.measures, f ∈ (measureNamingPair ctx m).2) ∨
         (∃ c ∈ s.columns, f ∈ (columnNamingPair ctx c).2))) ∧
    (∀ (f : AutoFix) (t sug : String), f.action = none → f.table = some t → t ≠ "" →
       f.current ≠ "" → f.suggested = some sug →
       renderFix f = some ("ALTER " ++ qualify f.entity t f.current ++ " RENAME TO [" ++
         escape_brackets sug ++ "];")) := by
  constructor
  · intro f hf
    constructor
    · intro ha
      rcases mem_validate_fixes.mp hf with ⟨m, hm, hfm⟩ | ⟨c, hc, hfc⟩
      · rcases measureChecks_fix_cases hfm with h | h | h
        · exact .inl ⟨m, hm, h⟩
        · obtain ⟨h1, _⟩ := measureFolderPair_fix h
          rw [ha] at h1
          cases h1
        · obtain ⟨h1, _⟩ := measureFormatPair_fix h
          rw [ha] at h1
          cases h1
      · rcases columnChecks_fix_cases hfc with h | h
        · exact .inr ⟨c, hc, h⟩
        · obtain ⟨h1, _⟩ := columnFolderPair_fix h
          rw [ha] at h1
          cases h1
    · rintro (⟨m, _, h⟩ | ⟨c, _, h⟩)
      · exact (measureNamingPair_fix h).1
      · exact (columnNamingPair_fix h).1
  · intro f t sug ha ht hne hcur hsug
    unfold renderFix
    rw [ha, ht, hsug]
    simp [hne, hcur]

/-- C10 witness: both halves of the theorem applied at concrete inputs —
the naming fix produced for `c3Structure` is action-less, and an action-less
fix renders as a rename statement. -/
theorem c10_witness :
    ((∃ m ∈ c3Structure.measures,
        ({ entity := "measure", table := some "Sales", current := "TotalSales",
           suggested := some "total_sales", rule_id := none } : AutoFix) ∈
          (measureNamingPair emptyCtx m).2) ∨
     (∃ c ∈ c3Structure.columns,
        ({ entity := "measure", table := some "Sales", current := "TotalSales",
           suggested := some "total_sales", rule_id := none } : AutoFix) ∈
          (columnNamingPair emptyCtx c).2)) ∧
    renderFix { entity := "measure", table := some "Sales", current := "TotalSales",
                action := none, suggested := some "total_sales", rule_id := none } =
      some "ALTER MEASURE 'Sales'[TotalSales] RENAME TO [total_sales];" := by
  constructor
  · exact ((c10_default_rename emptyCtx "src" c3Structure).1 _ (by decide)).mp rfl
  · have h := (c10_default_rename emptyCtx "src" c3Structure).2
      { entity := "measure", table := some "Sales", current := "TotalSales",
        action := none, suggested := some "total_sales", rule_id := none }
      "Sales" "total_sales" rfl rfl (by decide) (by decide) rfl
    exact h.trans (by rfl)

end PbipSpec

namespace PbipSpec

/-! ## Character-level facts (ASCII case mapping) -/

theorem isLower_toNat (c : Char) : c.isLower = true ↔ 97 ≤ c.toNat ∧ c.toNat ≤ 122 := by
  simp [Char.isLower, UInt32.le_def, BitVec.le_def, Char.toNat, UInt32.toNat]

theorem isUpper_toNat (c : Char) : c.isUpper = true ↔ 65 ≤ c.toNat ∧ c.toNat ≤ 90 := by
  simp [Char.isUpper, UInt32.le_def, BitVec.le_def, Char.toNat, UInt32.toNat]

theorem isDigit_toNat (c : Char) : c.isDigit = true ↔ 48 ≤ c.toNat ∧ c.toNat ≤ 57 := by
  simp [Char.isDigit, UInt32.le_def, BitVec.le_def, Char.toNat, UInt32.toNat]

theorem toNatOfNatSmall (n : Nat) (h : n < 55296) : (Char.ofNat n).toNat = n := by
  have hv : n.isValidChar := Or.inl h
  simp [Char.ofNat, hv, Char.ofNatAux, Char.toNat, UInt32.ofNat', UInt32.toNat]

theorem toLower_of_not_upper {c : Char} (h : c.isUpper = false) : c.toLower = c := by
  simp only [Char.toLower]
  rw [if_neg]
  intro hcon
  rw [show c.isUpper = (decide (65 ≤ c.toNat) && decide (c.toNat ≤ 90)) from by
    simp [Char.isUpper, UInt32.le_def, BitVec.le_def, Char.toNat, UInt32.toNat]] at h
  simp at h
  omega

theorem toUpper_of_not_lower {c : Char} (h : c.isLower = false) : c.toUpper = c := by
  simp only [Char.toUpper]
  rw [if_neg]
  intro hcon
  rw [show c.isLower = (decide (97 ≤ c.toNat) && decide (c.toNat ≤ 122)) from by
    simp [Char.isLower, UInt32.le_def, BitVec.le_def, Char.toNat, UInt32.toNat]] at h
  simp at h
  omega

theorem toLower_of_lowerDigit {c : Char} (h : lowerDigit c = true) : c.toLower = c := by
  apply toLower_of_not_upper
  simp [lowerDigit] at h
  rcases h with h | h
  · rw [isLower_toNat] at h
    by_contra hb
    simp at hb
    rw [isUpper_toNat] at hb
    omega
  · rw [isDigit_toNat] at h
    by_contra hb
    simp at hb
    rw [isUpper_toNat] at hb
    omega

theorem toLower_toNat_of_upper {c : Char} (h : c.isUpper = true) :
    (c.toLower).toNat = c.toNat + 32 := by
  rw [isUpper_toNat] at h
  simp only [Char.toLower]
  rw [if_pos (by omega)]
  exact toNatOfNatSmall _ (by omega)

theorem lowerDigit_toLower_of_alnum {c : Char} (h : pyAlnum c = true) :
    lowerDigit (c.toLower) = true := by
  simp only [pyAlnum, Bool.or_eq_true] at h
  rcases h with (h | h) | h
  · have := toLower_toNat_of_upper h
    simp only [lowerDigit, Bool.or_eq_true]
    left
    rw [isLower_toNat, this]
    rw [isUpper_toNat] at h
    omega
  · rw [toLower_of_lowerDigit (by simp [lowerDigit, h])]
    simp [lowerDigit, h]
  · rw [toLower_of_lowerDigit (by simp [lowerDigit, h])]
    simp [lowerDigit, h]

theorem lowerDigit_pyAlnum {c : Char} (h : lowerDigit c = true) : pyAlnum c = true := by
  simp only [lowerDigit, Bool.or_eq_true] at h
  simp only [pyAlnum, Bool.or_eq_true]
  tauto

theorem pyAlnum_toLower {c : Char} (h : pyAlnum c = true) : pyAlnum (c.toLower) = true :=
  lowerDigit_pyAlnum (lowerDigit_toLower_of_alnum h)

theorem toLower_ne_of_not_alnum {c d : Char} (hc : pyAlnum c = true) (hd : pyAlnum d = false) :
    c.toLower ≠ d := by
  intro he
  have := lowerDigit_pyAlnum (lowerDigit_toLower_of_alnum hc)
  rw [he, hd] at this
  cases this

theorem toUpper_toNat_of_lower {c : Char} (h : c.isLower = true) :
    (c.toUpper).toNat = c.toNat - 32 := by
  rw [isLower_toNat] at h
  simp only [Char.toUpper]
  rw [if_pos (by omega)]
  exact toNatOfNatSmall _ (by omega)

theorem isUpper_toUpper_of_alpha {c : Char} (h : c.isAlpha = true) :
    (c.toUpper).isUpper = true := by
  simp only [Char.isAlpha, Bool.or_eq_true] at h
  rcases h with h | h
  · rw [toUpper_of_not_lower]
    · exact h
    · rw [isUpper_toNat] at h
      by_contra hb
      simp at hb
      rw [isLower_toNat] at hb
      omega
  · rw [isUpper_toNat, toUpper_toNat_of_lower h]
    rw [isLower_toNat] at h
    omega

theorem pyAlnum_toUpper {c : Char} (h : pyAlnum c = true) : pyAlnum (c.toUpper) = true := by
  simp only [pyAlnum, Bool.or_eq_true] at h ⊢
  rcases h with (h | h) | h
  · rw [toUpper_of_not_lower]
    · tauto
    · rw [isUpper_toNat] at h
      by_contra hb
      simp at hb
      rw [isLower_toNat] at hb
      omega
  · left
    left
    exact isUpper_toUpper_of_alpha (by simp [Char.isAlpha, h])
  · rw [toUpper_of_not_lower]
    · tauto
    · rw [isDigit_toNat] at h
      by_contra hb
      simp at hb
      rw [isLower_toNat] at hb
      omega

theorem toUpper_idem (c : Char) : c.toUpper.toUpper = c.toUpper := by
  by_cases h : c.isLower = true
  · apply toUpper_of_not_lower
    have := toUpper_toNat_of_lower h
    rw [isLower_toNat] at h
    by_contra hb
    simp at hb
    rw [isLower_toNat] at hb
    omega
  · have hc : c.toUpper = c := toUpper_of_not_lower (by simpa using h)
    rw [hc]
    exact hc

theorem toLower_idem (c : Char) : c.toLower.toLower = c.toLower := by
  by_cases h : c.isUpper = true
  · apply toLower_of_not_upper
    have := toLower_toNat_of_upper h
    rw [isUpper_toNat] at h
    by_contra hb
    simp at hb
    rw [isUpper_toNat] at hb
    omega
  · have hc : c.toLower = c := toLower_of_not_upper (by simpa using h)
    rw [hc]
    exact hc

end PbipSpec

namespace PbipSpec

/-! ## Run-replacement, stripping and adjacency lemmas -/

def NoAdj (t : Char) (l : List Char) : Prop :=
  l.Chain' (fun a b => ¬(a = t ∧ b = t))

theorem noAdj_nil {t : Char} : NoAdj t [] := List.chain'_nil

theorem noAdj_tail {t : Char} {c : Char} {l : List Char} (h : NoAdj t (c :: l)) : NoAdj t l :=
  (List.chain'_cons'.mp h).2

theorem noAdj_reverse {t : Char} {l : List Char} : NoAdj t l.reverse ↔ NoAdj t l := by
  unfold NoAdj
  rw [List.chain'_reverse]
  constructor <;> exact fun h => h.imp (fun hab => by tauto)

theorem noAdj_of_suffix {t : Char} {l₁ l₂ : List Char} (hs : l₁ <:+ l₂) (h : NoAdj t l₂) :
    NoAdj t l₁ :=
  h.suffix hs

theorem repRuns_chars {q : Char → Bool} {rep : Char} :
    ∀ (b : Bool) (l : List Char), ∀ c ∈ repRuns q rep b l, (c ∈ l ∧ q c = false) ∨ c = rep := by
  intro b l
  induction l generalizing b with
  | nil => simp [repRuns]
  | cons d ds ih =>
    intro c hc
    simp only [repRuns] at hc
    by_cases hqd : q d = true
    · rw [if_pos hqd] at hc
      cases b with
      | true =>
        rw [if_pos rfl] at hc
        rcases ih true c hc with ⟨h1, h2⟩ | h
        · exact Or.inl ⟨List.mem_cons_of_mem _ h1, h2⟩
        · exact Or.inr h
      | false =>
        rw [if_neg Bool.false_ne_true] at hc
        rcases List.mem_cons.mp hc with h | h
        · exact Or.inr h
        · rcases ih true c h with ⟨h1, h2⟩ | h'
          · exact Or.inl ⟨List.mem_cons_of_mem _ h1, h2⟩
          · exact Or.inr h'
    · rw [if_neg hqd] at hc
      rcases List.mem_cons.mp hc with h | h
      · subst h
        exact Or.inl ⟨List.mem_cons_self _ _, by simpa using hqd⟩
      · rcases ih false c h with ⟨h1, h2⟩ | h'
        · exact Or.inl ⟨List.mem_cons_of_mem _ h1, h2⟩
        · exact Or.inr h'

theorem repRuns_mem {q : Char → Bool} {rep : Char} {c : Char} :
    ∀ (b : Bool) (l : List Char), c ∈ l → q c = false → c ∈ repRuns q rep b l := by
  intro b l
  induction l generalizing b with
  | nil => simp
  | cons d ds ih =>
    intro hc hqc
    simp only [repRuns]
    by_cases hqd : q d = true
    · rw [if_pos hqd]
      have hcd : c ∈ ds := by
        rcases List.mem_cons.mp hc with h | h
        · subst h
          rw [hqc] at hqd
          cases hqd
        · exact h
      cases b with
      | true => exact ih true hcd hqc
      | false => exact List.mem_cons_of_mem _ (ih true hcd hqc)
    · rw [if_neg hqd]
      rcases List.mem_cons.mp hc with h | h
      · subst h
        exact List.mem_cons_self _ _
      · exact List.mem_cons_of_mem _ (ih false h hqc)

theorem repRuns_head_true {q : Char → Bool} {rep : Char} :
    ∀ l : List Char, ∀ c ∈ (repRuns q rep true l).head?, q c = false := by
  intro l
  induction l with
  | nil => simp [repRuns]
  | cons d ds ih =>
    intro c hc
    simp only [repRuns] at hc
    by_cases hqd : q d = true
    · rw [if_pos hqd] at hc
      rw [if_pos trivial] at hc
      exact ih c hc
    · rw [if_neg hqd] at hc
      simp at hc
      subst hc
      simpa using hqd

theorem repRuns_noAdj {q : Char → Bool} {rep : Char} (hrep : q rep = true) :
    ∀ (b : Bool) (l : List Char), NoAdj rep (repRuns q rep b l) := by
  intro b l
  induction l generalizing b with
  | nil => simp [repRuns, NoAdj]
  | cons d ds ih =>
    simp only [repRuns]
    by_cases hqd : q d = true
    · rw [if_pos hqd]
      cases b with
      | true => simpa [if_pos rfl] using ih true
      | false =>
        rw [if_neg Bool.false_ne_true]
        unfold NoAdj
        rw [List.chain'_cons']
        refine ⟨?_, ih true⟩
        intro y hy
        have := @repRuns_head_true q rep ds y hy
        intro ⟨_, hy2⟩
        rw [hy2, hrep] at this
        cases this
    · rw [if_neg hqd]
      unfold NoAdj
      rw [List.chain'_cons']
      refine ⟨?_, ih false⟩
      intro y hy
      intro ⟨hd2, _⟩
      rw [hd2, hrep] at hqd
      exact hqd rfl

theorem repRuns_id {q : Char → Bool} {rep : Char} :
    ∀ l : List Char, (∀ c ∈ l, q c = true → c = rep) → NoAdj rep l →
      (repRuns q rep false l = l ∧
        ((∀ c ∈ l.head?, q c = false) → repRuns q rep true l = l)) := by
  intro l
  induction l with
  | nil => exact fun _ _ => ⟨rfl, fun _ => rfl⟩
  | cons d ds ih =>
    intro hcl hna
    by_cases hqd : q d = true
    · have hd : d = rep := hcl d (List.mem_cons_self _ _) hqd
      have hds : ∀ c ∈ ds.head?, q c = false := by
        intro c hc
        cases hds' : ds with
        | nil => rw [hds'] at hc; cases hc
        | cons e es =>
          rw [hds'] at hc
          simp at hc
          have hpair := (List.chain'_cons'.mp hna).1 c (by rw [hds']; simp [hc])
          by_contra hb
          simp at hb
          have hcrep : c = rep :=
            hcl c (List.mem_cons_of_mem _ (by rw [hds']; simp [hc])) hb
          exact hpair ⟨hd, hcrep⟩
      have htail := (ih (fun c hc h => hcl c (List.mem_cons_of_mem _ hc) h) (noAdj_tail hna)).2 hds
      constructor
      · simp only [repRuns, if_pos hqd]
        rw [if_neg Bool.false_ne_true, htail, hd]
      · intro hhead
        have := hhead d (by simp)
        rw [hqd] at this
        cases this
    · have htail := (ih (fun c hc h => hcl c (List.mem_cons_of_mem _ hc) h) (noAdj_tail hna)).1
      constructor
      · simp only [repRuns, if_neg hqd]
        rw [htail]
      · intro _
        simp only [repRuns, if_neg hqd]
        rw [htail]

end PbipSpec

namespace PbipSpec

theorem head_dropWhile {p : Char → Bool} :
    ∀ l : List Char, ∀ c ∈ (l.dropWhile p).head?, p c = false := by
  intro l
  induction l with
  | nil => simp [List.dropWhile]
  | cons d ds ih =>
    intro c hc
    simp only [List.dropWhile] at hc
    by_cases hpd : p d = true
    · simp only [hpd] at hc
      exact ih c hc
    · have hpd' : p d = false := by simpa using hpd
      simp only [hpd'] at hc
      simp at hc
      subst hc
      exact hpd'

theorem mem_dropWhile_of_not {p : Char → Bool} {c : Char} :
    ∀ l : List Char, c ∈ l → p c = false → c ∈ l.dropWhile p := by
  intro l
  induction l with
  | nil => simp
  | cons d ds ih =>
    intro hc hpc
    simp only [List.dropWhile]
    by_cases hpd : p d = true
    · simp only [hpd]
      rcases List.mem_cons.mp hc with h | h
      · subst h
        rw [hpc] at hpd
        cases hpd
      · exact ih h hpc
    · have hpd' : p d = false := by simpa using hpd
      simp only [hpd']
      exact hc

theorem dropWhile_eq_self {p : Char → Bool} {l : List Char}
    (h : ∀ c ∈ l.head?, p c = false) : l.dropWhile p = l := by
  cases l with
  | nil => rfl
  | cons d ds =>
    have := h d (by simp)
    simp [List.dropWhile, this]

theorem stripIf_subset {p : Char → Bool} {l : List Char} :
    ∀ c ∈ stripIf p l, c ∈ l := by
  intro c hc
  unfold stripIf at hc
  rw [List.mem_reverse] at hc
  have h1 := (List.dropWhile_suffix p).subset hc
  rw [List.mem_reverse] at h1
  exact (List.dropWhile_suffix p).subset h1

theorem stripIf_mem {p : Char → Bool} {l : List Char} {c : Char}
    (hc : c ∈ l) (hpc : p c = false) : c ∈ stripIf p l := by
  unfold stripIf
  rw [List.mem_reverse]
  apply mem_dropWhile_of_not _ _ hpc
  rw [List.mem_reverse]
  exact mem_dropWhile_of_not _ hc hpc

theorem stripIf_head {p : Char → Bool} {l : List Char} :
    ∀ c ∈ (stripIf p l).head?, p c = false := by
  intro c hc
  unfold stripIf at hc
  rw [List.head?_reverse] at hc
  by_cases hy : (l.dropWhile p).reverse.dropWhile p = []
  · rw [hy] at hc
    cases hc
  · obtain ⟨pre, hpre⟩ := @List.dropWhile_suffix Char ((l.dropWhile p).reverse) p
    have hgl := List.getLast?_append_of_ne_nil pre hy
    rw [hpre] at hgl
    rw [← hgl, List.getLast?_reverse] at hc
    exact head_dropWhile l c hc

theorem stripIf_last {p : Char → Bool} {l : List Char} :
    ∀ c ∈ (stripIf p l).getLast?, p c = false := by
  intro c hc
  unfold stripIf at hc
  rw [List.getLast?_reverse] at hc
  exact head_dropWhile _ c hc

theorem stripIf_noAdj {t : Char} {p : Char → Bool} {l : List Char} (h : NoAdj t l) :
    NoAdj t (stripIf p l) := by
  unfold stripIf
  apply noAdj_reverse.mpr
  apply noAdj_of_suffix (List.dropWhile_suffix p)
  apply noAdj_reverse.mpr
  exact noAdj_of_suffix (List.dropWhile_suffix p) h

theorem stripIf_id {p : Char → Bool} {l : List Char}
    (hh : ∀ c ∈ l.head?, p c = false) (hl : ∀ c ∈ l.getLast?, p c = false) :
    stripIf p l = l := by
  unfold stripIf
  rw [dropWhile_eq_self hh]
  rw [dropWhile_eq_self (by rw [List.head?_reverse]; exact hl)]
  exact List.reverse_reverse l

end PbipSpec

namespace PbipSpec

theorem insertBound_chars :
    ∀ l : List Char, ∀ c ∈ insertBound l, c ∈ l ∨ c = '_' := by
  intro l
  induction l using insertBound.induct with
  | case1 c1 c2 cs hcond ih =>
    intro c hc
    rw [insertBound, if_pos hcond] at hc
    rcases List.mem_cons.mp hc with h | h
    · exact Or.inl (by simp [h])
    · rcases List.mem_cons.mp h with h' | h'
      · exact Or.inr h'
      · rcases List.mem_cons.mp h' with h'' | h'' 
        · exact Or.inl (by simp [h''])
        · rcases ih c h'' with hm | hm
          · exact Or.inl (List.mem_cons_of_mem _ (List.mem_cons_of_mem _ hm))
          · exact Or.inr hm
  | case2 c1 c2 cs hcond ih =>
    intro c hc
    rw [insertBound, if_neg hcond] at hc
    rcases List.mem_cons.mp hc with h | h
    · exact Or.inl (by simp [h])
    · rcases ih c h with hm | hm
      · exact Or.inl (List.mem_cons_of_mem _ hm)
      · exact Or.inr hm
  | case3 l hl =>
    intro c hc
    rcases l with _ | ⟨d, _ | ⟨e, ds⟩⟩
    · exact Or.inl hc
    · exact Or.inl hc
    · exact ((hl d e ds rfl)).elim

theorem insertBound_head :
    ∀ l : List Char, (insertBound l).head? = l.head? := by
  intro l
  induction l using insertBound.induct with
  | case1 c1 c2 cs hcond ih => rw [insertBound, if_pos hcond]; rfl
  | case2 c1 c2 cs hcond ih => rw [insertBound, if_neg hcond]; rfl
  | case3 l hl =>
    rcases l with _ | ⟨d, _ | ⟨e, ds⟩⟩
    · rfl
    · rfl
    · exact ((hl d e ds rfl)).elim

theorem insertBound_nil_iff : ∀ l : List Char, insertBound l = [] ↔ l = [] := by
  intro l
  induction l using insertBound.induct with
  | case1 c1 c2 cs hcond ih =>
    rw [insertBound, if_pos hcond]
    simp
  | case2 c1 c2 cs hcond ih =>
    rw [insertBound, if_neg hcond]
    simp
  | case3 l hl =>
    rcases l with _ | ⟨d, _ | ⟨e, ds⟩⟩
    · rfl
    · rfl
    · exact ((hl d e ds rfl)).elim

theorem getLast?_cons_ne {a : Char} {l : List Char} (h : l ≠ []) :
    (a :: l).getLast? = l.getLast? := by
  cases l with
  | nil => exact absurd rfl h
  | cons b bs => exact List.getLast?_cons_cons

theorem insertBound_getLast :
    ∀ l : List Char, (insertBound l).getLast? = l.getLast? := by
  intro l
  induction l using insertBound.induct with
  | case1 c1 c2 cs hcond ih =>
    rw [insertBound, if_pos hcond]
    cases hcs : cs with
    | nil => rfl
    | cons e es =>
      have hne : insertBound (e :: es) ≠ [] := by
        rw [ne_eq, insertBound_nil_iff]
        simp
      rw [hcs] at ih
      rw [List.getLast?_cons_cons, List.getLast?_cons_cons, getLast?_cons_ne hne, ih,
        List.getLast?_cons_cons, List.getLast?_cons_cons]
  | case2 c1 c2 cs hcond ih =>
    rw [insertBound, if_neg hcond]
    have hne : insertBound (c2 :: cs) ≠ [] := by
      rw [ne_eq, insertBound_nil_iff]
      simp
    rw [getLast?_cons_ne hne, ih, List.getLast?_cons_cons]
  | case3 l hl =>
    rcases l with _ | ⟨d, _ | ⟨e, ds⟩⟩
    · rfl
    · rfl
    · exact ((hl d e ds rfl)).elim

end PbipSpec

namespace PbipSpec

theorem lowerDigit_not_upper {c : Char} (h : lowerDigit c = true) : c.isUpper = false := by
  rcases Bool.eq_false_or_eq_true c.isUpper with hb | hb
  · simp only [lowerDigit, Bool.or_eq_true] at h
    rw [isUpper_toNat] at hb
    rcases h with h | h
    · rw [isLower_toNat] at h
      omega
    · rw [isDigit_toNat] at h
      omega
  · exact hb

theorem underscore_not_upper : ('_' : Char).isUpper = false := by decide

theorem insertBound_noAdj :
    ∀ l : List Char, NoAdj '_' l → NoAdj '_' (insertBound l) := by
  intro l
  induction l using insertBound.induct with
  | case1 c1 c2 cs hcond ih =>
    intro h
    rw [insertBound, if_pos hcond]
    simp only [Bool.and_eq_true] at hcond
    obtain ⟨h1, h2⟩ := hcond
    have hc1 : c1 ≠ '_' := by
      intro he
      rw [he] at h1
      cases h1
    have hc2 : c2 ≠ '_' := by
      intro he
      rw [he] at h2
      rw [underscore_not_upper] at h2
      cases h2
    unfold NoAdj
    rw [List.chain'_cons']
    refine ⟨fun y _ hp => hc1 hp.1, ?_⟩
    rw [List.chain'_cons']
    refine ⟨fun y hy hp => ?_, ?_⟩
    · simp at hy
      subst hy
      exact hc2 hp.2
    rw [List.chain'_cons']
    constructor
    · intro y hy hp
      rw [insertBound_head] at hy
      have hpair := (List.chain'_cons'.mp (noAdj_tail h)).1 y hy
      exact hpair hp
    · exact ih (noAdj_tail (noAdj_tail h))
  | case2 c1 c2 cs hcond ih =>
    intro h
    rw [insertBound, if_neg hcond]
    unfold NoAdj
    rw [List.chain'_cons']
    constructor
    · intro y hy hp
      rw [insertBound_head] at hy
      simp at hy
      subst hy
      have hpair := (List.chain'_cons'.mp h).1 c2 (by simp)
      exact hpair hp
    · exact ih (noAdj_tail h)
  | case3 l hl =>
    intro h
    rcases l with _ | ⟨d, _ | ⟨e, ds⟩⟩
    · exact h
    · exact h
    · exact ((hl d e ds rfl)).elim

theorem insertBound_id :
    ∀ l : List Char, (∀ c ∈ l, c.isUpper = false) → insertBound l = l := by
  intro l
  induction l using insertBound.induct with
  | case1 c1 c2 cs hcond ih =>
    intro h
    simp only [Bool.and_eq_true] at hcond
    have := h c2 (by simp)
    rw [this] at hcond
    rcases hcond with ⟨_, h2⟩
    cases h2
  | case2 c1 c2 cs hcond ih =>
    intro h
    rw [insertBound, if_neg hcond]
    rw [ih (fun c hc => h c (List.mem_cons_of_mem _ hc))]
  | case3 l hl =>
    intro h
    rcases l with _ | ⟨d, _ | ⟨e, ds⟩⟩
    · rfl
    · rfl
    · exact ((hl d e ds rfl)).elim

theorem noAdj_map_toLower :
    ∀ l : List Char, (∀ c ∈ l, pyAlnum c = true ∨ c = '_') → NoAdj '_' l →
      NoAdj '_' (l.map Char.toLower) := by
  intro l
  induction l with
  | nil => intro _ _; simp [NoAdj]
  | cons d ds ih =>
    intro hchars h
    simp only [List.map_cons]
    unfold NoAdj
    rw [List.chain'_cons']
    constructor
    · intro y hy hp
      rw [List.head?_map] at hy
      rcases hhd : ds.head? with _ | e
      · rw [hhd] at hy
        cases hy
      · rw [hhd] at hy
        simp at hy
        obtain ⟨hdl, hyl⟩ := hp
        have hd' : d = '_' := by
          rcases hchars d (by simp) with ha | ha
          · exact absurd hdl (toLower_ne_of_not_alnum ha (by decide))
          · exact ha
        have hemem : e ∈ ds := by
          cases ds with
          | nil => cases hhd
          | cons f fs =>
            simp at hhd
            simp [hhd]
        have he' : e = '_' := by
          rcases hchars e (List.mem_cons_of_mem _ hemem) with ha | ha
          · rw [← hy] at hyl
            exact absurd hyl (toLower_ne_of_not_alnum ha (by decide))
          · exact ha
        have hpair := (List.chain'_cons'.mp h).1 e (by rw [hhd]; rfl)
        exact hpair ⟨hd', he'⟩
    · exact ih (fun c hc => hchars c (List.mem_cons_of_mem _ hc)) (noAdj_tail h)

end PbipSpec

namespace PbipSpec

theorem underscore_lowerDigit_false : lowerDigit '_' = false := by decide

theorem lowerDigit_ne_underscore {c : Char} (h : lowerDigit c = true) : c ≠ '_' := by
  intro he
  rw [he, underscore_lowerDigit_false] at h
  cases h

theorem getLast?_shift {c d : Char} {l : List Char} {x : Char}
    (hx : x ∈ l.getLast?) : x ∈ (c :: d :: l).getLast? ∧ x ∈ (d :: l).getLast? := by
  cases l with
  | nil => cases hx
  | cons e es =>
    constructor
    · rw [List.getLast?_cons_cons, List.getLast?_cons_cons]
      exact hx
    · rw [List.getLast?_cons_cons]
      exact hx

theorem snakeTail_of_shape :
    ∀ l : List Char, (∀ c ∈ l, lowerDigit c = true ∨ c = '_') → NoAdj '_' l →
      (∀ c ∈ l.getLast?, c ≠ '_') → snakeTail l = true := by
  intro l
  induction l using snakeTail.induct with
  | case1 =>
    intro _ _ _
    rfl
  | case2 =>
    intro _ _ hlast
    exact absurd rfl (hlast '_' rfl)
  | case3 c cs ih =>
    intro hchars hna hlast
    have hpair := (List.chain'_cons'.mp hna).1 c (by simp)
    have hcne : c ≠ '_' := fun he => hpair ⟨rfl, he⟩
    have hcld : lowerDigit c = true := by
      rcases hchars c (by simp) with h | h
      · exact h
      · exact absurd h hcne
    rw [snakeTail, hcld]
    simp only [Bool.true_and]
    apply ih
    · intro d hd
      exact hchars d (by simp [hd])
    · exact noAdj_tail (noAdj_tail hna)
    · intro d hd
      exact hlast d (getLast?_shift hd).1
  | case4 c cs hne1 hne2 ih =>
    intro hchars hna hlast
    have hcne : c ≠ '_' := by
      intro he
      cases hcs : cs with
      | nil => exact hne1 he hcs
      | cons e es => exact hne2 e es he hcs
    have hcld : lowerDigit c = true := by
      rcases hchars c (by simp) with h | h
      · exact h
      · exact absurd h hcne
    have hstep : snakeTail (c :: cs) = (lowerDigit c && snakeTail cs) := by
      rw [snakeTail.eq_def]
      split
      · rename_i heq
        cases heq
      · rename_i heq
        obtain ⟨h1, _⟩ := List.cons.inj heq
        exact absurd h1 hcne
      · rename_i c1 cs1 heq
        obtain ⟨h1, _⟩ := List.cons.inj heq
        exact absurd h1 hcne
      · rename_i hd tl hA hB heq
        obtain ⟨h1, h2⟩ := List.cons.inj heq
        rw [h1, h2]
    rw [hstep, hcld]
    simp only [Bool.true_and]
    apply ih
    · intro d hd
      exact hchars d (List.mem_cons_of_mem _ hd)
    · exact noAdj_tail hna
    · intro d hd
      cases hcs : cs with
      | nil => rw [hcs] at hd; cases hd
      | cons e es =>
        apply hlast
        rw [hcs] at hd
        rw [hcs, List.getLast?_cons_cons]
        exact hd

theorem shape_of_snakeTail :
    ∀ l : List Char, snakeTail l = true →
      (∀ c ∈ l, lowerDigit c = true ∨ c = '_') ∧ NoAdj '_' l ∧
        (∀ c ∈ l.getLast?, c ≠ '_') := by
  intro l
  induction l using snakeTail.induct with
  | case1 =>
    intro _
    exact ⟨by simp, List.chain'_nil, by simp⟩
  | case2 =>
    intro h
    cases h
  | case3 c cs ih =>
    intro h
    rw [snakeTail] at h
    simp only [Bool.and_eq_true] at h
    obtain ⟨hld, hst⟩ := h
    obtain ⟨ichars, ina, ilast⟩ := ih hst
    have hcne : c ≠ '_' := lowerDigit_ne_underscore hld
    refine ⟨?_, ?_, ?_⟩
    · intro d hd
      rcases List.mem_cons.mp hd with h | h
      · exact Or.inr h
      · rcases List.mem_cons.mp h with h' | h'
        · exact Or.inl (h' ▸ hld)
        · exact ichars d h'
    · unfold NoAdj
      rw [List.chain'_cons']
      refine ⟨fun y hy hp => ?_, ?_⟩
      · simp at hy
        subst hy
        exact hcne hp.2
      rw [List.chain'_cons']
      refine ⟨fun y hy hp => hcne hp.1, ina⟩
    · intro d hd
      cases hcs : cs with
      | nil =>
        rw [hcs] at hd
        simp at hd
        subst hd
        exact hcne
      | cons e es =>
        apply ilast
        rw [hcs]
        rw [hcs, List.getLast?_cons_cons, List.getLast?_cons_cons] at hd
        exact hd
  | case4 c cs hne1 hne2 ih =>
    intro h
    have hstep : snakeTail (c :: cs) = (lowerDigit c && snakeTail cs) := by
      rw [snakeTail.eq_def]
      split
      · rename_i heq
        cases heq
      · rename_i heq
        obtain ⟨h1, h2⟩ := List.cons.inj heq
        exact (hne1 h1 h2).elim
      · rename_i c1 cs1 heq
        obtain ⟨h1, h2⟩ := List.cons.inj heq
        exact (hne2 c1 cs1 h1 h2).elim
      · rename_i hd tl hA hB heq
        obtain ⟨h1, h2⟩ := List.cons.inj heq
        rw [h1, h2]
    rw [hstep] at h
    simp only [Bool.and_eq_true] at h
    obtain ⟨hld, hst⟩ := h
    obtain ⟨ichars, ina, ilast⟩ := ih hst
    have hcne : c ≠ '_' := lowerDigit_ne_underscore hld
    refine ⟨?_, ?_, ?_⟩
    · intro d hd
      rcases List.mem_cons.mp hd with h | h
      · exact Or.inl (h ▸ hld)
      · exact ichars d h
    · unfold NoAdj
      rw [List.chain'_cons']
      refine ⟨fun y hy hp => hcne hp.1, ina⟩
    · intro d hd
      cases hcs : cs with
      | nil =>
        rw [hcs] at hd
        simp at hd
        subst hd
        exact hcne
      | cons e es =>
        apply ilast
        rw [hcs]
        rw [hcs, List.getLast?_cons_cons] at hd
        exact hd

theorem matchesSnakeL_of_shape {l : List Char} (hne : l ≠ [])
    (hchars : ∀ c ∈ l, lowerDigit c = true ∨ c = '_') (hna : NoAdj '_' l)
    (hhead : ∀ c ∈ l.head?, c ≠ '_') (hlast : ∀ c ∈ l.getLast?, c ≠ '_') :
    matchesSnakeL l = true := by
  cases l with
  | nil => exact absurd rfl hne
  | cons c cs =>
    have hcne : c ≠ '_' := hhead c rfl
    have hcld : lowerDigit c = true := by
      rcases hchars c (by simp) with h | h
      · exact h
      · exact absurd h hcne
    rw [matchesSnakeL, hcld]
    simp only [Bool.true_and]
    apply snakeTail_of_shape
    · intro d hd
      exact hchars d (List.mem_cons_of_mem _ hd)
    · exact noAdj_tail hna
    · intro d hd
      cases hcs : cs with
      | nil => rw [hcs] at hd; cases hd
      | cons e es =>
        apply hlast
        rw [hcs]
        rw [hcs] at hd
        rw [List.getLast?_cons_cons]
        exact hd

theorem shape_of_matchesSnakeL {l : List Char} (h : matchesSnakeL l = true) :
    l ≠ [] ∧ (∀ c ∈ l, lowerDigit c = true ∨ c = '_') ∧ NoAdj '_' l ∧
      (∀ c ∈ l.head?, c ≠ '_') ∧ (∀ c ∈ l.getLast?, c ≠ '_') := by
  cases l with
  | nil => cases h
  | cons c cs =>
    rw [matchesSnakeL] at h
    simp only [Bool.and_eq_true] at h
    obtain ⟨hld, hst⟩ := h
    obtain ⟨ichars, ina, ilast⟩ := shape_of_snakeTail cs hst
    have hcne : c ≠ '_' := lowerDigit_ne_underscore hld
    refine ⟨by simp, ?_, ?_, ?_, ?_⟩
    · intro d hd
      rcases List.mem_cons.mp hd with h' | h'
      · exact Or.inl (h' ▸ hld)
      · exact ichars d h'
    · unfold NoAdj
      rw [List.chain'_cons']
      refine ⟨fun y hy hp => hcne hp.1, ina⟩
    · intro d hd
      simp at hd
      subst hd
      exact hcne
    · intro d hd
      cases hcs : cs with
      | nil =>
        rw [hcs] at hd
        simp at hd
        subst hd
        exact hcne
      | cons e es =>
        apply ilast
        rw [hcs]
        rw [hcs, List.getLast?_cons_cons] at hd
        exact hd

end PbipSpec

namespace PbipSpec

theorem underscore_not_alnum : pyAlnum '_' = false := by decide

theorem snake_s1_facts (x : String) :
    (∀ c ∈ stripIf (· = '_') (repRuns (fun c => !pyAlnum c) '_' false x.data),
        pyAlnum c = true ∨ c = '_') ∧
    NoAdj '_' (stripIf (· = '_') (repRuns (fun c => !pyAlnum c) '_' false x.data)) ∧
    (∀ c ∈ (stripIf (· = '_') (repRuns (fun c => !pyAlnum c) '_' false x.data)).head?,
        c ≠ '_') ∧
    (∀ c ∈ (stripIf (· = '_') (repRuns (fun c => !pyAlnum c) '_' false x.data)).getLast?,
        c ≠ '_') := by
  refine ⟨?_, ?_, ?_, ?_⟩
  · intro c hc
    have hc' := stripIf_subset c hc
    rcases repRuns_chars false x.data c hc' with ⟨_, h2⟩ | h
    · left
      simpa using h2
    · right
      exact h
  · exact stripIf_noAdj (repRuns_noAdj (by decide) false x.data)
  · intro c hc
    have := stripIf_head c hc
    simpa using this
  · intro c hc
    have := stripIf_last c hc
    simpa using this

theorem snake_s2_facts (x : String) :
    (∀ c ∈ insertBound (stripIf (· = '_') (repRuns (fun c => !pyAlnum c) '_' false x.data)),
        pyAlnum c = true ∨ c = '_') ∧
    NoAdj '_' (insertBound (stripIf (· = '_') (repRuns (fun c => !pyAlnum c) '_' false x.data))) ∧
    (∀ c ∈ (insertBound (stripIf (· = '_')
        (repRuns (fun c => !pyAlnum c) '_' false x.data))).head?, c ≠ '_') ∧
    (∀ c ∈ (insertBound (stripIf (· = '_')
        (repRuns (fun c => !pyAlnum c) '_' false x.data))).getLast?, c ≠ '_') := by
  obtain ⟨h1, h2, h3, h4⟩ := snake_s1_facts x
  refine ⟨?_, insertBound_noAdj _ h2, ?_, ?_⟩
  · intro c hc
    rcases insertBound_chars _ c hc with h | h
    · exact h1 c h
    · exact Or.inr h
  · intro c hc
    rw [insertBound_head] at hc
    exact h3 c hc
  · intro c hc
    rw [insertBound_getLast] at hc
    exact h4 c hc

theorem to_snake_data (x : String) :
    (to_snake_case x).data =
      (insertBound (stripIf (· = '_')
        (repRuns (fun c => !pyAlnum c) '_' false x.data))).map Char.toLower := by
  obtain ⟨h1, h2, _, _⟩ := snake_s2_facts x
  have hcoll := (@repRuns_id (fun c => decide (c = '_')) '_' _
    (fun c _ hq => by simpa using hq) h2).1
  show (repRuns (fun c => decide (c = '_')) '_' false _).map Char.toLower = _
  rw [hcoll]

theorem to_snake_shape (x : String) :
    (∀ c ∈ (to_snake_case x).data, lowerDigit c = true ∨ c = '_') ∧
    NoAdj '_' (to_snake_case x).data ∧
    (∀ c ∈ (to_snake_case x).data.head?, c ≠ '_') ∧
    (∀ c ∈ (to_snake_case x).data.getLast?, c ≠ '_') := by
  obtain ⟨h1, h2, h3, h4⟩ := snake_s2_facts x
  rw [to_snake_data]
  refine ⟨?_, noAdj_map_toLower _ h1 h2, ?_, ?_⟩
  · intro c hc
    rw [List.mem_map] at hc
    obtain ⟨d, hd, rfl⟩ := hc
    rcases h1 d hd with h | h
    · exact Or.inl (lowerDigit_toLower_of_alnum h)
    · subst h
      exact Or.inr (by decide)
  · intro c hc
    rw [List.head?_map] at hc
    rcases hh : (insertBound (stripIf (· = '_')
        (repRuns (fun c => !pyAlnum c) '_' false x.data))).head? with _ | d
    · rw [hh] at hc
      cases hc
    · rw [hh] at hc
      simp at hc
      subst hc
      have hd := h3 d (by rw [hh]; rfl)
      have hmem : d ∈ insertBound (stripIf (· = '_')
          (repRuns (fun c => !pyAlnum c) '_' false x.data)) := by
        rcases hl : insertBound (stripIf (· = '_')
            (repRuns (fun c => !pyAlnum c) '_' false x.data)) with _ | ⟨e, es⟩
        · rw [hl] at hh
          cases hh
        · rw [hl] at hh
          simp at hh
          rw [← hh]
          exact List.mem_cons_self _ _
      rcases h1 d hmem with h | h
      · exact toLower_ne_of_not_alnum h underscore_not_alnum
      · exact absurd h hd
  · intro c hc
    rw [List.getLast?_map] at hc
    rcases hh : (insertBound (stripIf (· = '_')
        (repRuns (fun c => !pyAlnum c) '_' false x.data))).getLast? with _ | d
    · rw [hh] at hc
      cases hc
    · rw [hh] at hc
      simp at hc
      subst hc
      have hd := h4 d (by rw [hh]; rfl)
      have hmem : d ∈ insertBound (stripIf (· = '_')
          (repRuns (fun c => !pyAlnum c) '_' false x.data)) := by
        rw [← List.head?_reverse] at hh
        rw [← List.mem_reverse]
        exact List.mem_of_mem_head? hh
      rcases h1 d hmem with h | h
      · exact toLower_ne_of_not_alnum h underscore_not_alnum
      · exact absurd h hd

end PbipSpec

namespace PbipSpec

theorem to_snake_ne_nil (x : String) (h : x.data.any pyAlnum = true) :
    (to_snake_case x).data ≠ [] := by
  rw [List.any_eq_true] at h
  obtain ⟨c, hc, hcal⟩ := h
  have h0 : c ∈ repRuns (fun c => !pyAlnum c) '_' false x.data :=
    repRuns_mem false x.data hc (by simpa using hcal)
  have hcne : c ≠ '_' := by
    intro he
    rw [he] at hcal
    rw [underscore_not_alnum] at hcal
    cases hcal
  have h1 : c ∈ stripIf (· = '_') (repRuns (fun c => !pyAlnum c) '_' false x.data) :=
    stripIf_mem h0 (by simpa using hcne)
  have h2 : insertBound (stripIf (· = '_')
      (repRuns (fun c => !pyAlnum c) '_' false x.data)) ≠ [] := by
    rw [ne_eq, insertBound_nil_iff]
    intro he
    rw [he] at h1
    cases h1
  rw [to_snake_data]
  simpa using h2

theorem to_snake_idem_aux (x : String) :
    to_snake_case (to_snake_case x) = to_snake_case x := by
  obtain ⟨hchars, hna, hhead, hlast⟩ := to_snake_shape x
  have hcl : ∀ c ∈ (to_snake_case x).data, (!pyAlnum c) = true → c = '_' := by
    intro c hc hq
    rcases hchars c hc with h | h
    · have := lowerDigit_pyAlnum h
      rw [this] at hq
      cases hq
    · exact h
  have e1 : repRuns (fun c => !pyAlnum c) '_' false (to_snake_case x).data =
      (to_snake_case x).data := (repRuns_id _ hcl hna).1
  have e2 : stripIf (· = '_') (to_snake_case x).data = (to_snake_case x).data := by
    apply stripIf_id
    · intro c hc
      simpa using hhead c hc
    · intro c hc
      simpa using hlast c hc
  have e3 : insertBound (to_snake_case x).data = (to_snake_case x).data := by
    apply insertBound_id
    intro c hc
    rcases hchars c hc with h | h
    · exact lowerDigit_not_upper h
    · rw [h]
      exact underscore_not_upper
  have e4 : repRuns (fun c => decide (c = '_')) '_' false (to_snake_case x).data =
      (to_snake_case x).data :=
    (repRuns_id _ (fun c _ hq => by simpa using hq) hna).1
  have e5 : (to_snake_case x).data.map Char.toLower = (to_snake_case x).data := by
    have hcg : ∀ c ∈ (to_snake_case x).data, Char.toLower c = id c := by
      intro c hc
      rcases hchars c hc with h | h
      · exact toLower_of_lowerDigit h
      · rw [h]
        decide
    rw [List.map_congr_left hcg, List.map_id]
  show (⟨(repRuns (fun c => decide (c = '_')) '_' false (insertBound (stripIf (· = '_')
      (repRuns (fun c => !pyAlnum c) '_' false (to_snake_case x).data)))).map Char.toLower⟩ :
    String) = to_snake_case x
  rw [e1, e2, e3, e4, e5]

theorem to_snake_matches (x : String) (h : x.data.any pyAlnum = true) :
    matchesSnake (to_snake_case x) = true := by
  obtain ⟨hchars, hna, hhead, hlast⟩ := to_snake_shape x
  exact matchesSnakeL_of_shape (to_snake_ne_nil x h) hchars hna hhead hlast

end PbipSpec

namespace PbipSpec

theorem pyAlnum_not_space {c : Char} (h : pyAlnum c = true) : pyIsSpace c = false := by
  by_cases hb : pyIsSpace c = true
  · exfalso
    simp only [pyIsSpace, Bool.or_eq_true, decide_eq_true_eq] at hb
    rcases hb with ((((h' | h') | h') | h') | h') | h' <;>
      (subst h'; exact absurd h (by decide))
  · simpa using hb

theorem pyAlnum_ne_space {c : Char} (h : pyAlnum c = true) : c ≠ ' ' := by
  intro he
  subst he
  cases h

theorem capWord_ne_nil {w : List Char} (h : w ≠ []) : capWord w ≠ [] := by
  cases w with
  | nil => exact absurd rfl h
  | cons c cs => simp [capWord]

theorem capWord_idem (w : List Char) : capWord (capWord w) = capWord w := by
  cases w with
  | nil => rfl
  | cons c cs =>
    simp only [capWord, List.map_map]
    rw [toUpper_idem]
    congr 1
    apply List.map_congr_left
    intro d _
    simpa using toLower_idem d

theorem capWord_chars {w : List Char} (h : ∀ c ∈ w, pyAlnum c = true) :
    ∀ c ∈ capWord w, pyAlnum c = true := by
  cases w with
  | nil => simp [capWord]
  | cons c cs =>
    intro d hd
    simp only [capWord] at hd
    rcases List.mem_cons.mp hd with h' | h'
    · subst h'
      exact pyAlnum_toUpper (h c (by simp))
    · rw [List.mem_map] at h'
      obtain ⟨e, he, rfl⟩ := h'
      exact pyAlnum_toLower (h e (List.mem_cons_of_mem _ he))

theorem wordsByGo_nil {sep : Char → Bool} {acc : List Char} (h : acc ≠ []) :
    wordsByGo sep [] acc = [acc.reverse] := by
  simp [wordsByGo, h]

theorem wordsByGo_word {sep : Char → Bool} :
    ∀ (w r acc : List Char), (∀ c ∈ w, sep c = false) →
      wordsByGo sep (w ++ r) acc = wordsByGo sep r (w.reverse ++ acc) := by
  intro w
  induction w with
  | nil => simp
  | cons c cs ih =>
    intro r acc hw
    have hc : sep c = false := hw c (by simp)
    have h1 : wordsByGo sep ((c :: cs) ++ r) acc = wordsByGo sep (cs ++ r) (c :: acc) := by
      simp only [List.cons_append, wordsByGo, hc]
      rw [if_neg Bool.false_ne_true]
      rfl
    rw [h1, ih r (c :: acc) (fun d hd => hw d (List.mem_cons_of_mem _ hd))]
    simp

theorem wordsByGo_sep {sep : Char → Bool} {c : Char} {r acc : List Char}
    (hc : sep c = true) (hacc : acc ≠ []) :
    wordsByGo sep (c :: r) acc = acc.reverse :: wordsByGo sep r [] := by
  simp [wordsByGo, hc, hacc]

theorem wordsByGo_ne_nil {sep : Char → Bool} :
    ∀ (l acc : List Char), acc ≠ [] → wordsByGo sep l acc ≠ [] := by
  intro l
  induction l with
  | nil =>
    intro acc hacc
    rw [wordsByGo_nil hacc]
    simp
  | cons c cs ih =>
    intro acc hacc
    simp only [wordsByGo]
    by_cases hc : sep c = true
    · rw [if_pos hc, if_neg hacc]
      simp
    · rw [if_neg hc]
      exact ih (c :: acc) (by simp)

theorem wordsBy_join {sep : Char → Bool} (hsp : sep ' ' = true) :
    ∀ ws : List (List Char), (∀ w ∈ ws, w ≠ [] ∧ ∀ c ∈ w, sep c = false) →
      wordsBy sep (joinSpace ws) = ws := by
  intro ws
  induction ws with
  | nil => intro _; rfl
  | cons w ws' ih =>
    intro hws
    obtain ⟨hwne, hwch⟩ := hws w (by simp)
    cases ws' with
    | nil =>
      show wordsByGo sep (joinSpace [w]) [] = [w]
      rw [show joinSpace [w] = w ++ [] from by simp [joinSpace]]
      rw [wordsByGo_word w [] [] hwch]
      rw [wordsByGo_nil (by simpa using hwne)]
      simp
    | cons v vs =>
      show wordsByGo sep (joinSpace (w :: v :: vs)) [] = w :: v :: vs
      rw [show joinSpace (w :: v :: vs) = w ++ ' ' :: joinSpace (v :: vs) from by
        rw [joinSpace]
        exact fun h => List.noConfusion h]
      rw [wordsByGo_word w _ [] hwch]
      rw [wordsByGo_sep hsp (by simpa using hwne)]
      simp only [List.append_nil, List.reverse_reverse]
      rw [show wordsByGo sep (joinSpace (v :: vs)) [] = wordsBy sep (joinSpace (v :: vs)) from rfl]
      rw [ih (fun u hu => hws u (List.mem_cons_of_mem _ hu))]

theorem wordsByGo_facts {sep : Char → Bool} (P : Char → Prop) :
    ∀ (l acc : List Char), (∀ c ∈ acc, sep c = false ∧ P c) →
      (∀ c ∈ l, sep c = false → P c) →
      ∀ w ∈ wordsByGo sep l acc, w ≠ [] ∧ ∀ c ∈ w, sep c = false ∧ P c := by
  intro l
  induction l with
  | nil =>
    intro acc hacc _ w hw
    by_cases ha : acc = []
    · rw [ha] at hw
      simp [wordsByGo] at hw
    · rw [wordsByGo_nil ha] at hw
      simp at hw
      subst hw
      refine ⟨by simpa using ha, ?_⟩
      intro c hc
      exact hacc c (by simpa using hc)
  | cons c cs ih =>
    intro acc hacc hl w hw
    simp only [wordsByGo] at hw
    by_cases hc : sep c = true
    · rw [if_pos hc] at hw
      by_cases ha : acc = []
      · rw [if_pos ha] at hw
        exact ih [] (by simp) (fun d hd hs => hl d (List.mem_cons_of_mem _ hd) hs) w hw
      · rw [if_neg ha] at hw
        rcases List.mem_cons.mp hw with h | h
        · subst h
          refine ⟨by simpa using ha, ?_⟩
          intro d hd
          exact hacc d (by simpa using hd)
        · exact ih [] (by simp) (fun d hd hs => hl d (List.mem_cons_of_mem _ hd) hs) w h
    · rw [if_neg hc] at hw
      have hc' : sep c = false := by simpa using hc
      apply ih (c :: acc) ?_ (fun d hd hs => hl d (List.mem_cons_of_mem _ hd) hs) w hw
      intro d hd
      rcases List.mem_cons.mp hd with h | h
      · subst h
        exact ⟨hc', hl d (by simp) hc'⟩
      · exact hacc d h

theorem wordsBy_facts {sep : Char → Bool} {l : List Char} :
    ∀ w ∈ wordsBy sep l, w ≠ [] ∧ ∀ c ∈ w, sep c = false ∧ c ∈ l :=
  wordsByGo_facts (fun c => c ∈ l) l [] (by simp) (fun c hc _ => hc)

theorem wordsBy_ne_nil {sep : Char → Bool} {l : List Char}
    (h : ∀ c ∈ l.head?, sep c = false) (hne : l ≠ []) : wordsBy sep l ≠ [] := by
  cases l with
  | nil => exact absurd rfl hne
  | cons c cs =>
    have hc := h c rfl
    show wordsByGo sep (c :: cs) [] ≠ []
    simp only [wordsByGo]
    rw [if_neg (by simp [hc])]
    exact wordsByGo_ne_nil cs [c] (by simp)

end PbipSpec

namespace PbipSpec

theorem joinSpace_cons₂ (w v : List Char) (vs : List (List Char)) :
    joinSpace (w :: v :: vs) = w ++ ' ' :: joinSpace (v :: vs) := by
  rw [joinSpace]
  exact fun h => List.noConfusion h

theorem getLast?_mem {l : List Char} {c : Char} (h : c ∈ l.getLast?) : c ∈ l := by
  rw [← List.head?_reverse] at h
  exact List.mem_reverse.mp (List.mem_of_mem_head? h)

theorem joinSpace_ne_nil {ws : List (List Char)} (hne : ws ≠ [])
    (hw : ∀ w ∈ ws, w ≠ []) : joinSpace ws ≠ [] := by
  cases ws with
  | nil => exact absurd rfl hne
  | cons w ws' =>
    cases ws' with
    | nil => exact hw w (by simp)
    | cons v vs =>
      rw [joinSpace_cons₂]
      cases w with
      | nil => exact hw [] (by simp) rfl |>.elim
      | cons c cs => simp

theorem joinSpace_mem {ws : List (List Char)} :
    ∀ c ∈ joinSpace ws, c = ' ' ∨ ∃ w ∈ ws, c ∈ w := by
  induction ws with
  | nil => simp [joinSpace]
  | cons w ws' ih =>
    cases ws' with
    | nil =>
      intro c hc
      right
      exact ⟨w, by simp, hc⟩
    | cons v vs =>
      rw [joinSpace_cons₂]
      intro c hc
      rcases List.mem_append.mp hc with h | h
      · right; exact ⟨w, by simp, h⟩
      · rcases List.mem_cons.mp h with h | h
        · left; exact h
        · rcases ih c h with h' | ⟨u, hu, hcu⟩
          · left; exact h'
          · right; exact ⟨u, List.mem_cons_of_mem _ hu, hcu⟩

theorem joinSpace_head {w : List Char} {ws : List (List Char)} (h : w ≠ []) :
    (joinSpace (w :: ws)).head? = w.head? := by
  cases ws with
  | nil => rfl
  | cons v vs =>
    rw [joinSpace_cons₂]
    cases w with
    | nil => exact absurd rfl h
    | cons c cs => rfl

theorem joinSpace_getLast {ws : List (List Char)} (hw : ∀ w ∈ ws, w ≠ []) :
    ∀ c ∈ (joinSpace ws).getLast?, ∃ w ∈ ws, c ∈ w := by
  induction ws with
  | nil => simp [joinSpace]
  | cons w ws' ih =>
    cases ws' with
    | nil =>
      intro c hc
      exact ⟨w, by simp, getLast?_mem hc⟩
    | cons v vs =>
      intro c hc
      rw [joinSpace_cons₂] at hc
      have hne : joinSpace (v :: vs) ≠ [] :=
        joinSpace_ne_nil (by simp) (fun u hu => hw u (List.mem_cons_of_mem _ hu))
      rw [List.getLast?_append_of_ne_nil _ (by simp)] at hc
      rw [getLast?_cons_ne hne] at hc
      obtain ⟨u, hu, hcu⟩ := ih (fun u hu => hw u (List.mem_cons_of_mem _ hu)) c hc
      exact ⟨u, List.mem_cons_of_mem _ hu, hcu⟩

theorem noAdj_of_not_mem {t : Char} {l : List Char} (h : ∀ c ∈ l, c ≠ t) : NoAdj t l := by
  induction l with
  | nil => exact noAdj_nil
  | cons c cs ih =>
    rw [NoAdj, List.chain'_cons']
    exact ⟨fun y _ hy => absurd hy.1 (h c (by simp)),
      ih (fun d hd => h d (List.mem_cons_of_mem _ hd))⟩

theorem joinSpace_noAdj {ws : List (List Char)}
    (hw : ∀ w ∈ ws, w ≠ [] ∧ ∀ c ∈ w, c ≠ ' ') : NoAdj ' ' (joinSpace ws) := by
  induction ws with
  | nil => exact noAdj_nil
  | cons w ws' ih =>
    cases ws' with
    | nil => exact noAdj_of_not_mem (hw w (by simp)).2
    | cons v vs =>
      rw [joinSpace_cons₂]
      have hvne : v ≠ [] := (hw v (by simp)).1
      apply List.Chain'.append (noAdj_of_not_mem (hw w (by simp)).2)
      · rw [List.chain'_cons']
        refine ⟨?_, ih (fun u hu => hw u (List.mem_cons_of_mem _ hu))⟩
        intro y hy hand
        rw [joinSpace_head hvne] at hy
        exact absurd hand.2 ((hw v (by simp)).2 y (List.mem_of_mem_head? hy))
      · intro x hx y _ hand
        exact absurd hand.1 ((hw w (by simp)).2 x (getLast?_mem hx))

end PbipSpec

namespace PbipSpec

theorem pascal_words_facts (x : String) :
    ∀ w ∈ wordsBy pyIsSpace (pascalCleaned x), w ≠ [] ∧ ∀ c ∈ w, pyAlnum c = true := by
  intro w hw
  obtain ⟨hne, hf⟩ := wordsBy_facts w hw
  refine ⟨hne, fun c hc => ?_⟩
  obtain ⟨hs, hmem⟩ := hf c hc
  have hcl : c ∈ repRuns (fun c => !pyAlnum c) ' ' false x.data := stripIf_subset c hmem
  rcases repRuns_chars false x.data c hcl with ⟨_, h2⟩ | h
  · simpa using h2
  · rw [h] at hs
    exact absurd hs (by decide)

theorem capWords_facts {ws : List (List Char)}
    (hw : ∀ w ∈ ws, w ≠ [] ∧ ∀ c ∈ w, pyAlnum c = true) :
    ∀ w ∈ ws.map capWord, w ≠ [] ∧ ∀ c ∈ w, pyAlnum c = true := by
  intro w hmem
  rw [List.mem_map] at hmem
  obtain ⟨u, hu, rfl⟩ := hmem
  exact ⟨capWord_ne_nil (hw u hu).1, capWord_chars (hw u hu).2⟩

theorem joined_words {ws : List (List Char)}
    (hw : ∀ w ∈ ws, w ≠ [] ∧ ∀ c ∈ w, pyAlnum c = true) :
    wordsBy pyIsSpace (joinSpace ws) = ws :=
  wordsBy_join (by decide) ws (fun w hmem => ⟨(hw w hmem).1,
    fun c hc => pyAlnum_not_space ((hw w hmem).2 c hc)⟩)

theorem join_fixed {ws : List (List Char)}
    (hw : ∀ w ∈ ws, w ≠ [] ∧ ∀ c ∈ w, pyAlnum c = true) :
    stripIf pyIsSpace (repRuns (fun c => !pyAlnum c) ' ' false (joinSpace ws)) =
      joinSpace ws := by
  have hmem : ∀ c ∈ joinSpace ws, pyAlnum c = true ∨ c = ' ' := by
    intro c hc
    rcases joinSpace_mem c hc with h | ⟨u, hu, hcu⟩
    · right; exact h
    · left; exact (hw u hu).2 c hcu
  have hna : NoAdj ' ' (joinSpace ws) :=
    joinSpace_noAdj (fun w hm =>
      ⟨(hw w hm).1, fun c hc => pyAlnum_ne_space ((hw w hm).2 c hc)⟩)
  have e1 : repRuns (fun c => !pyAlnum c) ' ' false (joinSpace ws) = joinSpace ws := by
    apply (repRuns_id _ ?_ hna).1
    intro c hc hq
    rcases hmem c hc with h | h
    · rw [h] at hq
      exact absurd hq (by decide)
    · exact h
  rw [e1]
  apply stripIf_id
  · intro c hc
    cases ws with
    | nil => simp [joinSpace] at hc
    | cons w ws' =>
      rw [joinSpace_head (hw w (by simp)).1] at hc
      exact pyAlnum_not_space ((hw w (by simp)).2 c (List.mem_of_mem_head? hc))
  · intro c hc
    obtain ⟨u, hu, hcu⟩ := joinSpace_getLast (fun w hm => (hw w hm).1) c hc
    exact pyAlnum_not_space ((hw u hu).2 c hcu)

theorem to_pascal_eq (x : String) (h : pascalCleaned x ≠ []) :
    to_pascal_case_with_spaces x =
      ⟨joinSpace ((wordsBy pyIsSpace (pascalCleaned x)).map capWord)⟩ := by
  rw [to_pascal_case_with_spaces, if_neg h]

theorem to_pascal_data (x : String) (h : pascalCleaned x ≠ []) :
    (to_pascal_case_with_spaces x).data =
      joinSpace ((wordsBy pyIsSpace (pascalCleaned x)).map capWord) := by
  rw [to_pascal_eq x h]

theorem pascal_words_ne_nil (x : String) (h : pascalCleaned x ≠ []) :
    wordsBy pyIsSpace (pascalCleaned x) ≠ [] :=
  wordsBy_ne_nil (fun c hc => stripIf_head c hc) h

theorem to_pascal_idem_aux (x : String) :
    to_pascal_case_with_spaces (to_pascal_case_with_spaces x) =
      to_pascal_case_with_spaces x := by
  by_cases h : pascalCleaned x = []
  · have e : to_pascal_case_with_spaces x = x := by
      rw [to_pascal_case_with_spaces, if_pos h]
    rw [e]
    exact e
  · have hwf := pascal_words_facts x
    have hcw := capWords_facts hwf
    have hclean : pascalCleaned (to_pascal_case_with_spaces x) =
        joinSpace ((wordsBy pyIsSpace (pascalCleaned x)).map capWord) := by
      rw [pascalCleaned, to_pascal_data x h]
      exact join_fixed hcw
    have hne2 : pascalCleaned (to_pascal_case_with_spaces x) ≠ [] := by
      rw [hclean]
      apply joinSpace_ne_nil
      · simpa using pascal_words_ne_nil x h
      · exact fun w hm => (hcw w hm).1
    rw [to_pascal_eq (to_pascal_case_with_spaces x) hne2, hclean, joined_words hcw,
      to_pascal_eq x h]
    congr 1
    have hfix : ∀ w ∈ (wordsBy pyIsSpace (pascalCleaned x)).map capWord,
        capWord w = id w := by
      intro w hm
      obtain ⟨u, hu, rfl⟩ := List.mem_map.mp hm
      rw [capWord_idem]
      rfl
    rw [List.map_congr_left hfix, List.map_id]

end PbipSpec

namespace PbipSpec

theorem pasTail_cons_alnum {c : Char} (l : List Char) (h : pyAlnum c = true) :
    pasTail (c :: l) = pasTail l := by
  have hcs : c ≠ ' ' := pyAlnum_ne_space h
  rw [pasTail.eq_def]
  split
  · simp_all
  · rename_i heq
    exact absurd (List.head_eq_of_cons_eq heq.symm).symm hcs
  · rename_i heq
    exact absurd (List.head_eq_of_cons_eq heq.symm).symm hcs
  · rename_i heq
    obtain ⟨h1, h2⟩ := List.cons_eq_cons.mp heq.symm
    rw [h1, h2, h]
    simp

theorem pasTail_space (l : List Char) : pasTail (' ' :: l) = matchesPascalL l := by
  cases l with
  | nil => rfl
  | cons d ds => rfl

theorem pasTail_alnum_app :
    ∀ w r : List Char, (∀ c ∈ w, pyAlnum c = true) → pasTail (w ++ r) = pasTail r := by
  intro w
  induction w with
  | nil => intro r _; rfl
  | cons c cs ih =>
    intro r hw
    rw [List.cons_append, pasTail_cons_alnum _ (hw c (by simp))]
    exact ih r (fun d hd => hw d (List.mem_cons_of_mem _ hd))

theorem pasTail_all_alnum {l : List Char} (h : ∀ c ∈ l, pyAlnum c = true) :
    pasTail l = true := by
  have := pasTail_alnum_app l [] h
  simpa using this

theorem matchesPascalL_join :
    ∀ ws : List (List Char), ws ≠ [] →
      (∀ w ∈ ws, w ≠ [] ∧ (∀ c ∈ w, pyAlnum c = true) ∧ ∀ c ∈ w.head?, c.isUpper = true) →
      matchesPascalL (joinSpace ws) = true := by
  intro ws
  induction ws with
  | nil => intro h; exact absurd rfl h
  | cons w ws' ih =>
    intro _ hws
    obtain ⟨hwne, hwal, hwup⟩ := hws w (by simp)
    cases ws' with
    | nil =>
      cases w with
      | nil => exact absurd rfl hwne
      | cons c cs =>
        show (c.isUpper && pasTail cs) = true
        rw [hwup c rfl, pasTail_all_alnum (fun d hd => hwal d (List.mem_cons_of_mem _ hd))]
        rfl
    | cons v vs =>
      rw [joinSpace_cons₂]
      cases w with
      | nil => exact absurd rfl hwne
      | cons c cs =>
        rw [List.cons_append]
        show (c.isUpper && pasTail (cs ++ ' ' :: joinSpace (v :: vs))) = true
        rw [hwup c rfl,
          pasTail_alnum_app cs _ (fun d hd => hwal d (List.mem_cons_of_mem _ hd)),
          pasTail_space,
          ih (by simp) (fun u hu => hws u (List.mem_cons_of_mem _ hu))]
        rfl

theorem to_pascal_matches (x : String) (h : pascalCleaned x ≠ [])
    (hheads : ∀ w ∈ wordsBy pyIsSpace (pascalCleaned x), ∀ c ∈ w.head?, c.isAlpha = true) :
    matchesPascal (to_pascal_case_with_spaces x) = true := by
  rw [matchesPascal, to_pascal_data x h]
  apply matchesPascalL_join
  · simpa using pascal_words_ne_nil x h
  · intro w hm
    obtain ⟨u, hu, rfl⟩ := List.mem_map.mp hm
    obtain ⟨hune, hual⟩ := pascal_words_facts x u hu
    refine ⟨capWord_ne_nil hune, capWord_chars hual, ?_⟩
    cases u with
    | nil => exact absurd rfl hune
    | cons c cs =>
      intro d hd
      have hdc : d = c.toUpper := (Option.some_inj.mp hd).symm
      rw [hdc]
      exact isUpper_toUpper_of_alpha (hheads (c :: cs) hu c rfl)

end PbipSpec

namespace PbipSpec

/-- C7: both naming transforms are total functions of the input string (they
are defined for every input, matching the source's exception-free code
paths), and both are idempotent. -/
theorem c7_transforms_idempotent (x : String) :
    to_snake_case (to_snake_case x) = to_snake_case x ∧
    to_pascal_case_with_spaces (to_pascal_case_with_spaces x) =
      to_pascal_case_with_spaces x :=
  ⟨to_snake_idem_aux x, to_pascal_idem_aux x⟩

/-- C4 counterexample: `to_snake_case ""` is `""`, which the snake_case
regex (requiring at least one `[a-z0-9]`) rejects, and
`to_pascal_case_with_spaces "3d"` is `"3d"`, whose first character is a
digit, which the PascalCase regex (requiring a leading `[A-Z]`) rejects. -/
theorem c4_counterexample :
    matchesSnake (to_snake_case "") = false ∧
    to_pascal_case_with_spaces "3d" = "3d" ∧
    matchesPascal (to_pascal_case_with_spaces "3d") = false := by
  decide

/-- C4 (amended): if the input contains at least one ASCII alphanumeric
character then `to_snake_case` produces a string accepted by
`SNAKE_CASE_RE`; if moreover every whitespace-separated word of the cleaned
input starts with a letter (rather than a digit), then
`to_pascal_case_with_spaces` produces a string accepted by
`PASCAL_CASE_WITH_SPACES_RE`. -/
theorem c4_naming_conformance (n : String)
    (hs : n.data.any pyAlnum = true)
    (hheads : ∀ w ∈ wordsBy pyIsSpace (pascalCleaned n),
      w.head?.all Char.isAlpha = true) :
    matchesSnake (to_snake_case n) = true ∧
    matchesPascal (to_pascal_case_with_spaces n) = true := by
  have hp : pascalCleaned n ≠ [] := by
    rw [List.any_eq_true] at hs
    obtain ⟨c, hc, hcal⟩ := hs
    have h0 : c ∈ repRuns (fun c => !pyAlnum c) ' ' false n.data :=
      repRuns_mem false n.data hc (by simpa using hcal)
    have h1 : c ∈ pascalCleaned n := stripIf_mem h0 (pyAlnum_not_space hcal)
    intro he
    rw [he] at h1
    cases h1
  refine ⟨to_snake_matches n hs, to_pascal_matches n hp ?_⟩
  intro w hw c hc
  have hb := hheads w hw
  rw [Option.mem_def] at hc
  rw [hc] at hb
  simpa using hb

/-- C4 witness: a concrete input satisfying the amended hypotheses, at which
both transforms produce pattern-conforming output. -/
theorem c4_witness :
    (("Total Sales" : String).data.any pyAlnum = true ∧
      ∀ w ∈ wordsBy pyIsSpace (pascalCleaned "Total Sales"),
        w.head?.all Char.isAlpha = true) ∧
    matchesSnake (to_snake_case "Total Sales") = true ∧
    matchesPascal (to_pascal_case_with_spaces "Total Sales") = true :=
  ⟨⟨by decide, by decide⟩, c4_naming_conformance "Total Sales" (by decide) (by decide)⟩

end PbipSpec

namespace PbipSpec

theorem str_left_cancel {s t u : String} (h : s ++ t = s ++ u) : t = u := by
  have h2 : (s ++ t).data = (s ++ u).data := congrArg String.data h
  rw [String.data_append, String.data_append] at h2
  have h3 := List.append_cancel_left h2
  cases t with
  | mk td =>
    cases u with
    | mk ud => exact congrArg String.mk (h3 : td = ud)

theorem append_left_injective (s : String) :
    Function.Injective (fun t => s ++ t) := fun _ _ h => str_left_cancel h

theorem idx_append {a : String} (x : String) {i : Nat} (h : i < a.data.length) :
    (a ++ x).data[i]? = a.data[i]? := by
  rw [String.data_append]
  exact List.getElem?_append_left h

theorem nodup_append_rank (f : String → Nat) (k : Nat) {l₁ l₂ : List String}
    (ha : ∀ s ∈ l₁, f s < k) (hb : ∀ s ∈ l₂, k ≤ f s)
    (n₁ : l₁.Nodup) (n₂ : l₂.Nodup) : (l₁ ++ l₂).Nodup := by
  rw [List.nodup_append]
  exact ⟨n₁, n₂, fun a h1 h2 => absurd (hb a h2) (Nat.not_le.mpr (ha a h1))⟩

theorem ruleRank_coding (x : String) : ruleRank ("dax.coding." ++ x) = 1 := by
  rw [ruleRank, idx_append x (by decide), if_neg (by decide), if_pos (by decide)]

theorem ruleRank_performance (x : String) : ruleRank ("dax.performance." ++ x) = 2 := by
  rw [ruleRank, idx_append x (by decide), if_neg (by decide), if_neg (by decide),
    if_pos (by decide)]

theorem ruleRank_anti (x : String) : ruleRank ("dax.anti_pattern." ++ x) = 3 := by
  rw [ruleRank, idx_append x (by decide), if_neg (by decide), if_neg (by decide),
    if_neg (by decide), if_pos (by decide)]

theorem ruleRank_pq_fmt (x : String) : ruleRank ("power_query.formatting." ++ x) = 5 := by
  rw [ruleRank, idx_append x (by decide), if_neg (by decide), if_neg (by decide),
    if_neg (by decide), if_neg (by decide), if_neg (by decide),
    idx_append x (by decide), if_pos (by decide)]

theorem to_dict_id (r : StandardRule) : (StandardRule.to_dict r).id = r.id := rfl

end PbipSpec

namespace PbipSpec

theorem dax_ids (cfg : LegacyConfig) :
    (_build_dax_rules cfg).map (fun r => r.id) =
      (["dax.naming.measure.snake_case", "dax.naming.column.pascal_case"] ++
        (if (cfg.DAX_Templates.getD {}).naming.folders ≠ [] then
          ["dax.naming.display_folder.allowed"] else [])) ++
      ((cfg.DAX_Templates.getD {}).coding.map (fun kv => "dax.coding." ++ _slug kv.1) ++
      ((cfg.DAX_Templates.getD {}).performance.map
          (fun kv => "dax.performance." ++ _slug kv.1) ++
      ((cfg.DAX_Templates.getD {}).anti_patterns.map
          (fun e => "dax.anti_pattern." ++ (⟨(_slug e).data.take 40⟩ : String)) ++
      ["dax.formatting.measure.format_string_required"]))) := by
  simp only [_build_dax_rules, List.map_append, List.map_map, List.map_cons, List.map_nil,
    apply_ite (List.map (fun r : StandardRule => r.id)), List.append_assoc]
  rfl

theorem pq_ids (cfg : LegacyConfig) :
    (_build_power_query_rules cfg).map (fun r => r.id) =
      (cfg.Power_Query_guide.getD {}).formatting.map
          (fun kv => "power_query.formatting." ++ _slug kv.1) ++
      (match (cfg.Power_Query_guide.getD {}).doc_block_required with
       | some _ => ["power_query.documentation.doc_block_required"]
       | none => []) := by
  simp only [_build_power_query_rules, List.map_append, List.map_map]
  cases hdb : (cfg.Power_Query_guide.getD {}).doc_block_required with
  | some req => rfl
  | none => rfl

end PbipSpec

namespace PbipSpec

theorem nodup_seven {S0 S1 S2 S3 S4 S5 S6 : List String}
    (r0 : ∀ s ∈ S0, ruleRank s = 0) (r1 : ∀ s ∈ S1, ruleRank s = 1)
    (r2 : ∀ s ∈ S2, ruleRank s = 2) (r3 : ∀ s ∈ S3, ruleRank s = 3)
    (r4 : ∀ s ∈ S4, ruleRank s = 4) (r5 : ∀ s ∈ S5, ruleRank s = 5)
    (r6 : ∀ s ∈ S6, ruleRank s = 6)
    (n0 : S0.Nodup) (n1 : S1.Nodup) (n2 : S2.Nodup) (n3 : S3.Nodup)
    (n4 : S4.Nodup) (n5 : S5.Nodup) (n6 : S6.Nodup) :
    (S0 ++ (S1 ++ (S2 ++ (S3 ++ (S4 ++ (S5 ++ S6)))))).Nodup := by
  have m5 : ∀ s ∈ S5 ++ S6, 5 ≤ ruleRank s := by
    intro s hs
    rcases List.mem_append.mp hs with h | h
    · have := r5 s h; omega
    · have := r6 s h; omega
  have m4 : ∀ s ∈ S4 ++ (S5 ++ S6), 4 ≤ ruleRank s := by
    intro s hs
    rcases List.mem_append.mp hs with h | h
    · have := r4 s h; omega
    · have := m5 s h; omega
  have m3 : ∀ s ∈ S3 ++ (S4 ++ (S5 ++ S6)), 3 ≤ ruleRank s := by
    intro s hs
    rcases List.mem_append.mp hs with h | h
    · have := r3 s h; omega
    · have := m4 s h; omega
  have m2 : ∀ s ∈ S2 ++ (S3 ++ (S4 ++ (S5 ++ S6))), 2 ≤ ruleRank s := by
    intro s hs
    rcases List.mem_append.mp hs with h | h
    · have := r2 s h; omega
    · have := m3 s h; omega
  have m1 : ∀ s ∈ S1 ++ (S2 ++ (S3 ++ (S4 ++ (S5 ++ S6)))), 1 ≤ ruleRank s := by
    intro s hs
    rcases List.mem_append.mp hs with h | h
    · have := r1 s h; omega
    · have := m2 s h; omega
  have nd5 : (S5 ++ S6).Nodup :=
    nodup_append_rank ruleRank 6 (fun s hs => by have := r5 s hs; omega)
      (fun s hs => by have := r6 s hs; omega) n5 n6
  have nd4 : (S4 ++ (S5 ++ S6)).Nodup :=
    nodup_append_rank ruleRank 5 (fun s hs => by have := r4 s hs; omega) m5 n4 nd5
  have nd3 : (S3 ++ (S4 ++ (S5 ++ S6))).Nodup :=
    nodup_append_rank ruleRank 4 (fun s hs => by have := r3 s hs; omega) m4 n3 nd4
  have nd2 : (S2 ++ (S3 ++ (S4 ++ (S5 ++ S6)))).Nodup :=
    nodup_append_rank ruleRank 3 (fun s hs => by have := r2 s hs; omega) m3 n2 nd3
  have nd1 : (S1 ++ (S2 ++ (S3 ++ (S4 ++ (S5 ++ S6))))).Nodup :=
    nodup_append_rank ruleRank 2 (fun s hs => by have := r1 s hs; omega) m2 n1 nd2
  exact nodup_append_rank ruleRank 1 (fun s hs => by have := r0 s hs; omega) m1 n0 nd1

/-- C2 (amended): the rule ids of a built catalog are pairwise distinct
provided the slugs of the coding keys, of the performance keys, and of the
power-query formatting keys are pairwise distinct, and the anti-pattern
slugs are still pairwise distinct after truncation to 40 characters.  (The
truncated anti-pattern ids carry no content hash, so the last hypothesis is
not automatic — see the counterexample.)  The catalog is built as
`load_catalog` does, with `config` read from the legacy file. -/
theorem c2_rule_ids_nodup (now : String) (cfg : LegacyConfig)
    (h1 : ((cfg.DAX_Templates.getD {}).coding.map (fun kv => _slug kv.1)).Nodup)
    (h2 : ((cfg.DAX_Templates.getD {}).performance.map (fun kv => _slug kv.1)).Nodup)
    (h3 : ((cfg.DAX_Templates.getD {}).anti_patterns.map
        (fun e => (⟨(_slug e).data.take 40⟩ : String))).Nodup)
    (h4 : ((cfg.Power_Query_guide.getD {}).formatting.map
        (fun kv => _slug kv.1)).Nodup) :
    ((build_catalog now (some cfg) (some cfg)).rules.map (fun r => r.id)).Nodup := by
  have hid : ((build_catalog now (some cfg) (some cfg)).rules.map (fun r => r.id)) =
      (_build_dax_rules cfg ++ _build_power_query_rules cfg).map (fun r => r.id) := by
    simp only [build_catalog, Option.getD_some, ite_self, List.map_map]
    exact List.map_congr_left (fun r _ => to_dict_id r)
  rw [hid, List.map_append, dax_ids cfg, pq_ids cfg,
    show ∀ a b c d e f g : List String,
        (a ++ (b ++ (c ++ (d ++ e)))) ++ (f ++ g) =
          a ++ (b ++ (c ++ (d ++ (e ++ (f ++ g))))) from
      fun a b c d e f g => by simp [List.append_assoc]]
  apply nodup_seven
  · intro s hs
    rcases List.mem_append.mp hs with h | h
    · rcases List.mem_cons.mp h with h' | h'
      · rw [h']; decide
      · rcases List.mem_cons.mp h' with h'' | h''
        · rw [h'']; decide
        · cases h''
    · by_cases hf : (cfg.DAX_Templates.getD {}).naming.folders ≠ []
      · rw [if_pos hf] at h
        rcases List.mem_cons.mp h with h' | h'
        · rw [h']; decide
        · cases h'
      · rw [if_neg hf] at h
        cases h
  · intro s hs
    obtain ⟨kv, _, rfl⟩ := List.mem_map.mp hs
    exact ruleRank_coding _
  · intro s hs
    obtain ⟨kv, _, rfl⟩ := List.mem_map.mp hs
    exact ruleRank_performance _
  · intro s hs
    obtain ⟨e, _, rfl⟩ := List.mem_map.mp hs
    exact ruleRank_anti _
  · intro s hs
    rcases List.mem_cons.mp hs with h' | h'
    · rw [h']; decide
    · cases h'
  · intro s hs
    obtain ⟨kv, _, rfl⟩ := List.mem_map.mp hs
    exact ruleRank_pq_fmt _
  · intro s hs
    cases hdb : (cfg.Power_Query_guide.getD {}).doc_block_required with
    | some req =>
      rw [hdb] at hs
      rcases List.mem_cons.mp hs with h' | h'
      · rw [h']; decide
      · cases h'
    | none =>
      rw [hdb] at hs
      cases hs
  · by_cases hf : (cfg.DAX_Templates.getD {}).naming.folders ≠ []
    · rw [if_pos hf]; decide
    · rw [if_neg hf]; decide
  · have := List.Nodup.map (append_left_injective "dax.coding.") h1
    rw [List.map_map] at this
    exact this
  · have := List.Nodup.map (append_left_injective "dax.performance.") h2
    rw [List.map_map] at this
    exact this
  · have := List.Nodup.map (append_left_injective "dax.anti_pattern.") h3
    rw [List.map_map] at this
    exact this
  · decide
  · have := List.Nodup.map (append_left_injective "power_query.formatting.") h4
    rw [List.map_map] at this
    exact this
  · cases (cfg.Power_Query_guide.getD {}).doc_block_required with
    | some req => exact List.nodup_singleton _
    | none => exact List.nodup_nil

end PbipSpec

namespace PbipSpec

/-- C2 witness: a configuration with every rule family populated and
pairwise-distinct slugs satisfies the amended hypotheses, and the resulting
catalog's ids are pairwise distinct. -/
theorem c2_witness :
    (((c2cfgDistinct.DAX_Templates.getD {}).coding.map (fun kv => _slug kv.1)).Nodup ∧
      ((c2cfgDistinct.DAX_Templates.getD {}).anti_patterns.map
        (fun e => (⟨(_slug e).data.take 40⟩ : String))).Nodup) ∧
    ((build_catalog "2026-01-01T00:00:00+00:00" (some c2cfgDistinct)
        (some c2cfgDistinct)).rules.map (fun r => r.id)).Nodup :=
  ⟨⟨by decide, by decide⟩,
    c2_rule_ids_nodup "2026-01-01T00:00:00+00:00" c2cfgDistinct
      (by decide) (by decide) (by decide) (by decide)⟩

end PbipSpec

namespace PbipSpec

theorem foldl_preserve {α β : Type} (P : β → Prop) (f : β → α → β)
    (hf : ∀ b a, P b → P (f b a)) :
    ∀ (l : List α) (b : β), P b → P (l.foldl f b) := by
  intro l
  induction l with
  | nil => intro b hb; exact hb
  | cons a as ih => intro b hb; exact ih (f b a) (hf b a hb)

theorem bumpCounter_pos {c : List (String × Nat)} {key : String} {n : Nat}
    (h : ∀ e ∈ c, 0 < e.2) : ∀ e ∈ bumpCounter c key n, 0 < e.2 := by
  intro e he
  rw [bumpCounter] at he
  by_cases hn : n = 0
  · rw [if_pos hn] at he
    exact h e he
  · rw [if_neg hn] at he
    by_cases hk : c.any (fun e => e.1 = key) = true
    · rw [if_pos hk] at he
      obtain ⟨u, hu, hue⟩ := List.mem_map.mp he
      by_cases hu1 : u.1 = key
      · rw [if_pos hu1] at hue
        rw [← hue]
        have := h u hu
        omega
      · rw [if_neg hu1] at hue
        rw [← hue]
        exact h u hu
    · rw [if_neg hk] at he
      rcases List.mem_append.mp he with h' | h'
      · exact h e h'
      · rcases List.mem_cons.mp h' with h'' | h''
        · rw [h'']
          omega
        · cases h''

theorem scanInto_pos {c : List (String × Nat)} {lowered : List Char} {base : Nat}
    (h : ∀ e ∈ c, 0 < e.2) : ∀ e ∈ scanInto c lowered base, 0 < e.2 := by
  rw [scanInto]
  exact foldl_preserve (fun c : List (String × Nat) => ∀ e ∈ c, 0 < e.2) _
    (fun b a hb => bumpCounter_pos hb) DOMAIN_KEYWORDS c h

theorem counterUpdate_pos {c other : List (String × Nat)}
    (h : ∀ e ∈ c, 0 < e.2) : ∀ e ∈ counterUpdate c other, 0 < e.2 := by
  rw [counterUpdate]
  exact foldl_preserve (fun c : List (String × Nat) => ∀ e ∈ c, 0 < e.2) _
    (fun b a hb => bumpCounter_pos hb) other c h

theorem infer_metadata_pos (md : Metadata) :
    ∀ e ∈ infer_domains_from_metadata md, 0 < e.2 := by
  rw [infer_domains_from_metadata]
  exact foldl_preserve (fun c : List (String × Nat) => ∀ e ∈ c, 0 < e.2) _
    (fun b a hb => scanInto_pos hb) (metaValues md) [] (by simp)

theorem infer_structure_pos (st : Option ModelStructure) :
    ∀ e ∈ infer_domains_from_structure st, 0 < e.2 := by
  cases st with
  | none => simp [infer_domains_from_structure]
  | some s =>
    rw [infer_domains_from_structure]
    apply foldl_preserve (fun c : List (String × Nat) => ∀ e ∈ c, 0 < e.2) _
      (fun b a hb => scanInto_pos hb) s.columns
    exact foldl_preserve (fun c : List (String × Nat) => ∀ e ∈ c, 0 < e.2) _
      (fun b a hb => scanInto_pos hb) s.tables [] (by simp)

theorem domainCounter_pos (md : Metadata) (st : Option ModelStructure) (stem : String) :
    ∀ e ∈ domainCounter md st stem, 0 < e.2 := by
  rw [domainCounter]
  apply scanInto_pos
  apply counterUpdate_pos
  apply counterUpdate_pos
  simp

end PbipSpec

namespace PbipSpec

/-- C5: domain resolution.  If no domain accrues any score the result is
`("generic", [])`.  Otherwise the ranked candidate list (the counter sorted
descending by score, insertion-stable) is retained in the result, every
candidate's score is positive, and the primary domain is `"multi-domain"`
exactly when two or more candidates score within 1 point (inclusive) of the
top score, the top-ranked domain otherwise. -/
theorem c5_domain_resolution (md : Metadata) (st : Option ModelStructure) (stem : String) :
    (domainCounter md st stem = [] →
      determine_primary_domain md st stem = ("generic", [])) ∧
    (domainCounter md st stem ≠ [] →
      (determine_primary_domain md st stem).2 = rankCounter (domainCounter md st stem) ∧
      List.Sorted (fun a b => a.2 ≥ b.2) (rankCounter (domainCounter md st stem)) ∧
      (rankCounter (domainCounter md st stem)).Perm (domainCounter md st stem) ∧
      (∀ e ∈ rankCounter (domainCounter md st stem), 0 < e.2) ∧
      (determine_primary_domain md st stem).1 =
        (if 1 < ((rankCounter (domainCounter md st stem)).filter
              (fun item =>
                ((rankCounter (domainCounter md st stem)).headD ("", 0)).2 ≤
                  item.2 + 1)).length
         then "multi-domain"
         else ((rankCounter (domainCounter md st stem)).headD ("", 0)).1)) := by
  have e0 : scanInto
      (counterUpdate (counterUpdate [] (infer_domains_from_metadata md))
        (infer_domains_from_structure st))
      (lowerChars stem) 2 = domainCounter md st stem := rfl
  constructor
  · intro h
    have h' : scanInto
        (counterUpdate (counterUpdate [] (infer_domains_from_metadata md))
          (infer_domains_from_structure st))
        (lowerChars stem) 2 = [] := h
    simp only [determine_primary_domain]
    rw [if_pos h']
  · intro hne
    have hne' : ¬ (scanInto
        (counterUpdate (counterUpdate [] (infer_domains_from_metadata md))
          (infer_domains_from_structure st))
        (lowerChars stem) 2 = []) := hne
    have hpos : ∀ e ∈ domainCounter md st stem, 0 < e.2 := domainCounter_pos md st stem
    have hperm : (rankCounter (domainCounter md st stem)).Perm (domainCounter md st stem) :=
      List.perm_insertionSort _ _
    have hposR : ∀ e ∈ rankCounter (domainCounter md st stem), 0 < e.2 :=
      fun e he => hpos e (hperm.mem_iff.mp he)
    haveI : IsTotal (String × Nat) (fun a b => a.2 ≥ b.2) := ⟨fun a b => le_total b.2 a.2⟩
    haveI : IsTrans (String × Nat) (fun a b => a.2 ≥ b.2) :=
      ⟨fun _ _ _ hab hbc => le_trans hbc hab⟩
    have hsort : List.Sorted (fun a b => a.2 ≥ b.2) (rankCounter (domainCounter md st stem)) :=
      List.sorted_insertionSort _ _
    have hrne : rankCounter (domainCounter md st stem) ≠ [] := by
      intro h
      rw [h] at hperm
      exact hne (hperm.symm.eq_nil)
    have htopmem : (rankCounter (domainCounter md st stem)).headD ("", 0) ∈
        rankCounter (domainCounter md st stem) := by
      cases hr : rankCounter (domainCounter md st stem) with
      | nil => exact absurd hr hrne
      | cons a l => simp
    have htoppos : 0 < ((rankCounter (domainCounter md st stem)).headD ("", 0)).2 :=
      hposR _ htopmem
    have hfc : (rankCounter (domainCounter md st stem)).filter
          (fun item =>
            decide (max 1 (((rankCounter (domainCounter md st stem)).headD ("", 0)).2 - 1) ≤
              item.2) && decide (0 < item.2)) =
        (rankCounter (domainCounter md st stem)).filter
          (fun item =>
            ((rankCounter (domainCounter md st stem)).headD ("", 0)).2 ≤ item.2 + 1) := by
      apply List.filter_congr
      intro e he
      have hv := hposR e he
      have hiff : (max 1 (((rankCounter (domainCounter md st stem)).headD ("", 0)).2 - 1) ≤
          e.2) ↔ (((rankCounter (domainCounter md st stem)).headD ("", 0)).2 ≤ e.2 + 1) := by
        omega
      rw [decide_eq_decide.mpr hiff, decide_eq_true hv, Bool.and_true]
    have hdet : determine_primary_domain md st stem =
        (if 1 < ((rankCounter (domainCounter md st stem)).filter
              (fun item =>
                ((rankCounter (domainCounter md st stem)).headD ("", 0)).2 ≤
                  item.2 + 1)).length
         then ("multi-domain", rankCounter (domainCounter md st stem))
         else (((rankCounter (domainCounter md st stem)).headD ("", 0)).1,
               rankCounter (domainCounter md st stem))) := by
      simp only [determine_primary_domain]
      rw [if_neg hne', e0, hfc]
    refine ⟨?_, hsort, hperm, hposR, ?_⟩
    · rw [hdet]
      by_cases hl : 1 < ((rankCounter (domainCounter md st stem)).filter
          (fun item =>
            ((rankCounter (domainCounter md st stem)).headD ("", 0)).2 ≤ item.2 + 1)).length
      · rw [if_pos hl]
      · rw [if_neg hl]
    · rw [hdet]
      by_cases hl : 1 < ((rankCounter (domainCounter md st stem)).filter
          (fun item =>
            ((rankCounter (domainCounter md st stem)).headD ("", 0)).2 ≤ item.2 + 1)).length
      · rw [if_pos hl, if_pos hl]
      · rw [if_neg hl, if_neg hl]

end PbipSpec

namespace PbipSpec

/-- C5 witness: a file-name stem mentioning sales produces a non-empty
counter, and the resolution facts hold there concretely. -/
theorem c5_witness :
    domainCounter {} none "sales_report" ≠ [] ∧
    ((determine_primary_domain {} none "sales_report").2 =
        rankCounter (domainCounter {} none "sales_report") ∧
      List.Sorted (fun a b => a.2 ≥ b.2)
        (rankCounter (domainCounter {} none "sales_report")) ∧
      (rankCounter (domainCounter {} none "sales_report")).Perm
        (domainCounter {} none "sales_report") ∧
      (∀ e ∈ rankCounter (domainCounter {} none "sales_report"), 0 < e.2) ∧
      (determine_primary_domain {} none "sales_report").1 =
        (if 1 < ((rankCounter (domainCounter {} none "sales_report")).filter
              (fun item =>
                ((rankCounter (domainCounter {} none "sales_report")).headD ("", 0)).2 ≤
                  item.2 + 1)).length
         then "multi-domain"
         else ((rankCounter (domainCounter {} none "sales_report")).headD ("", 0)).1)) :=
  ⟨by decide, (c5_domain_resolution {} none "sales_report").2 (by decide)⟩

end PbipSpec
